import Mathlib

/-!
Verification of the gochess core engine (package `internal`).

The definitions below are a shallow embedding of the Go source:
`board.go` (piece/square encoding, `MakeMove`, `GetPieceTypes`,
`HasInsufficientMaterial`) and `fen.go` (`ParseFen`, `Fen`).

Modelling conventions:
* Go `Piece` (a `uint8`) is `Nat`; the constant values follow the Go
  `iota` encoding: White=0, Black=1, NoPiece=0, Pawn=2, Knight=4,
  Bishop=6, Rook=8, Queen=10, King=12, and colored pieces are
  `color ||| type` (WP=2, BP=3, WN=4, BN=5, WB=6, BB=7, WR=8, BR=9,
  WQ=10, BQ=11, WK=12, BK=13).
* Go `Sq` (an `int8`) is `Int`; `NoSquare = -1`.  Go's truncated `%`
  and `/` on signed integers are `Int.tmod` and `Int.tdiv`.
* The Go `[64]Piece` array is a `List Nat` of length 64 (index
  `rank*8 + file`), and `[4]Sq` is a `List Int` of length 4 with the
  Go castle indices WhiteOOO=0, BlackOOO=1, WhiteOO=2, BlackOO=3
  (from `queenSide = 0`, `kingSide = 2`).
* Out-of-range array accesses panic in Go; the embedding totalizes
  them (reads default to `NoPiece`, writes out of range are dropped),
  which agrees with Go on every non-panicking execution.
* Go strings are `List Char`; byte-level and rune-level indexing agree
  on the ASCII data handled here.
-/

namespace GoChess

/-- Go `Piece.Color`: `int(p) & 0x01`. -/
def pieceColor (p : Nat) : Nat := p &&& 1

/-- Go `Piece.Type`: `int(p) &^ 0x01` (clear the low bit). -/
def pieceType (p : Nat) : Nat := p - (p &&& 1)

/-- Go `Sq.File`: `int(sq) % 8` with Go's truncated remainder. -/
def sqFile (sq : Int) : Int := Int.tmod sq 8

/-- Go `Sq.Rank`: `int(sq) / 8` with Go's truncated division. -/
def sqRank (sq : Int) : Int := Int.tdiv sq 8

/-- Go `Square(file, rank)`: the packed index, or `NoSquare = -1` when a
coordinate is outside `0..7`. -/
def mkSquare (file rank : Int) : Int :=
  if file < 0 ∨ 7 < file ∨ rank < 0 ∨ 7 < rank then -1 else rank * 8 + file

/-- Go `Sq.RelativeRank(color)`: the rank seen from `color`'s side. -/
def relativeRank (sq : Int) (color : Nat) : Int :=
  if color = 0 then sqRank sq else 7 - sqRank sq

/-- Go `Sq.Color`: checkerboard parity `(file+rank+1) % 2` (0 = light). -/
def sqColor (sq : Int) : Int := Int.tmod (sqFile sq + sqRank sq + 1) 2

/-- The Go `Board` struct.  `Piece` is the 64-entry placement list,
`CastleSq` the 4-entry castle-rook list. -/
structure Board where
  Piece : List Nat
  SideToMove : Nat
  MoveNr : Int
  Rule50 : Int
  EpSquare : Int
  CastleSq : List Int
  checkFrom : Int
  checkTo : Int
deriving DecidableEq, Repr

/-- The Go `Move` struct (`From`, `To`, `Promotion`). -/
structure Move where
  From : Int
  To : Int
  Promotion : Nat
deriving DecidableEq, Repr

/-- Modelled from the spec: the Go `NullMove` sentinel is declared in the
move-generation file, which is not part of the available sources.  The spec
describes it as "a distinguished null move that performs no board change
besides flipping the side to move"; it is modelled as the impossible
from/to pair `NoSquare → NoSquare` with no promotion. -/
def NullMove : Move := ⟨-1, -1, 0⟩

/-- Reading `l[sq]` for a piece list; out-of-range reads yield `NoPiece`
(Go panics, see the module conventions). -/
def pieceAtL (l : List Nat) (sq : Int) : Nat :=
  if sq < 0 then 0 else l.getD sq.toNat 0

/-- Reading `b.Piece[sq]`. -/
def pieceAt (b : Board) (sq : Int) : Nat := pieceAtL b.Piece sq

/-- Writing `pieces[sq] = v`; out-of-range writes are dropped. -/
def setPiece (l : List Nat) (sq : Int) (v : Nat) : List Nat :=
  if sq < 0 then l else l.set sq.toNat v

/-- Go `b.my(piece)`: `b.SideToMove | piece`. -/
def myPiece (b : Board) (k : Nat) : Nat := b.SideToMove ||| k

/-- Go `b.opp(piece)`: `(b.SideToMove ^ 1) | piece`. -/
def oppPiece (b : Board) (k : Nat) : Nat := (b.SideToMove ^^^ 1) ||| k

/-- The four squares used when castling on `wing` (2 = king side,
0 = queen side): rook-from, king-from, rook-to, king-to.

Modelled from the spec: `castleSquares` lives in the move-generation file,
which is not part of the available sources.  The spec (§4.3) describes
castling as the king capturing its own rook on the canonical home squares,
with the standard destinations (king to g/c-file, rook to f/d-file). -/
def castleSquares (b : Board) (wing : Nat) : Int × Int × Int × Int :=
  let base : Int := if b.SideToMove = 0 then 0 else 56
  if wing = 2 then (base + 7, base + 4, base + 5, base + 6)
  else (base, base + 4, base + 3, base + 2)

/-- The castling case of the `switch` in `Board.MakeMove`: the mover's
king stands on `m.From` and its own rook on `m.To`. -/
def castleBranch (b : Board) (m : Move) : Board :=
  let wing : Nat := if m.To < m.From then 0 else 2
  let q := castleSquares b wing
  let rf := q.1
  let kf := q.2.1
  let rt := q.2.2.1
  let kt := q.2.2.2
  let pcs := setPiece (setPiece (setPiece (setPiece b.Piece rf 0) kf 0) rt (myPiece b 8)) kt (myPiece b 12)
  let b := { b with Piece := pcs }
  let b :=
    if kf < kt then { b with checkFrom := kf, checkTo := kt }
    else { b with checkFrom := kt, checkTo := kf }
  let cs := (b.CastleSq.set (b.SideToMove ||| 2) (-1)).set (b.SideToMove ||| 0) (-1)
  let b := { b with CastleSq := cs }
  { b with Rule50 := b.Rule50 + 1 }

/-- The pawn-specific `switch` inside the default case of `Board.MakeMove`
(double push sets the new en-passant square, an en-passant capture moves
the captured pawn onto the target square, a back-rank move promotes).
`epSquare` is the en-passant target remembered before the reset. -/
def pawnPhase (b : Board) (m : Move) (epSquare : Int) : Board :=
  let piece := pieceAt b m.From
  if pieceType piece = 2 then
    let dy := sqRank m.To - sqRank m.From
    if dy = 2 ∨ dy = -2 then
      { b with EpSquare := mkSquare (sqFile m.From) (sqRank m.From + Int.tdiv dy 2) }
    else if m.To = epSquare then
      -- move the captured pawn to the ep-square, so that Rule50 is
      -- updated correctly below
      let pcs := setPiece (setPiece b.Piece (mkSquare (sqFile m.To) (sqRank m.From)) 0) epSquare (oppPiece b 2)
      { b with Piece := pcs }
    else if relativeRank m.To b.SideToMove = 7 then
      { b with Piece := setPiece b.Piece m.From m.Promotion }
    else b
  else b

/-- The default case of the `switch` in `Board.MakeMove`: pawn handling,
castling-rights update, fifty-move counter, then the piece relocation. -/
def defaultBranch (b : Board) (m : Move) (epSquare : Int) : Board :=
  let piece := pieceAt b m.From
  let b := pawnPhase b m epSquare
  -- update castling rights
  let cs := b.CastleSq.map (fun sq => if sq = m.From ∨ sq = m.To then -1 else sq)
  let b := { b with CastleSq := cs }
  let b :=
    if pieceType piece = 12 then
      let cs := (b.CastleSq.set (b.SideToMove ||| 2) (-1)).set (b.SideToMove ||| 0) (-1)
      { b with CastleSq := cs }
    else b
  -- update the 50-move rule counter
  let b :=
    if pieceType piece = 2 ∨ pieceAt b m.To ≠ 0 then { b with Rule50 := 0 }
    else { b with Rule50 := b.Rule50 + 1 }
  -- move the piece
  let pcs := setPiece (setPiece b.Piece m.To (pieceAt b m.From)) m.From 0
  { b with Piece := pcs }

/-- The trailing side switch of `Board.MakeMove`: flip the side to move
and bump the full-move counter when it becomes White's turn. -/
def switchSide (b : Board) : Board :=
  let b : Board := { b with SideToMove := b.SideToMove ^^^ 1 }
  if b.SideToMove = 0 then { b with MoveNr := b.MoveNr + 1 } else b

/-- Go `Board.MakeMove` (`board.go`), transliterated.  The Go method has a
value receiver: the body mutates a local copy (threaded through the
`let`/branch functions above), and the caller's board is untouched.  The
Go `switch` becomes the `if` chain below. -/
def MakeMove (b : Board) (m : Move) : Board :=
  -- remember en passant square
  let epSquare := b.EpSquare
  -- these are reset by making a move
  let b : Board := { b with EpSquare := -1, checkFrom := 0, checkTo := 0 }
  let b : Board :=
    if m = NullMove then
      -- do nothing
      b
    else if pieceAt b m.From = myPiece b 12 ∧ pieceAt b m.To = myPiece b 8 then
      castleBranch b m
    else
      defaultBranch b m epSquare
  -- switch side to move
  switchSide b

/-- The Go `GamePiece` struct: a (piece, square) pair. -/
structure GamePiece where
  piece : Nat
  sq : Int
deriving DecidableEq, Repr

/-- Go `Board.GetPieceTypes(color)`: the (piece, square) pairs of the
occupied squares of `color`, scanned from A1 (=0) up to H8 (=63). -/
def GetPieceTypes (b : Board) (color : Nat) : List GamePiece :=
  (List.range 64).filterMap (fun sq =>
    let piece := b.Piece.getD sq 0
    if piece = 0 ∨ pieceColor piece ≠ color then none
    else some ⟨piece, (sq : Int)⟩)

/-- Go `Board.HasInsufficientMaterial`, transliterated, including the
Black-side scan that compares against the White constants `WB` (6) and
`WN` (4). -/
def HasInsufficientMaterial (b : Board) : Bool :=
  let whitePieces := GetPieceTypes b 0
  let blackPieces := GetPieceTypes b 1
  if whitePieces.length > 3 ∨ blackPieces.length > 3 then false
  else
    -- if white has a rook, a pawn or a queen
    let whiteHasLightColoredBishop := whitePieces.any (fun gp => gp.piece = 6 ∧ sqColor gp.sq = 0)
    let whiteHasDarkColoredBishop := whitePieces.any (fun gp => gp.piece = 6 ∧ sqColor gp.sq ≠ 0)
    let whiteKnightCount := whitePieces.countP (fun gp => gp.piece = 4)
    if whitePieces.any (fun gp => gp.piece = 8 ∨ gp.piece = 2 ∨ gp.piece = 10) then false
    else if whiteHasLightColoredBishop ∧ whiteHasDarkColoredBishop then false
    else if whiteKnightCount > 1 then false
    else if (whiteHasLightColoredBishop ∨ whiteHasDarkColoredBishop) ∧ whiteKnightCount ≥ 1 then false
    else
      -- if black has a rook, a pawn or a queen; the bishop/knight tests
      -- compare against the White constants WB=6 / WN=4 exactly as the
      -- Go source does
      let blackHasLightColoredBishop := blackPieces.any (fun gp => gp.piece = 6 ∧ sqColor gp.sq = 0)
      let blackHasDarkColoredBishop := blackPieces.any (fun gp => gp.piece = 6 ∧ sqColor gp.sq ≠ 0)
      let blackKnightCount := blackPieces.countP (fun gp => gp.piece = 4)
      if blackPieces.any (fun gp => gp.piece = 9 ∨ gp.piece = 3 ∨ gp.piece = 11) then false
      else if blackHasLightColoredBishop ∧ blackHasDarkColoredBishop then false
      else if blackKnightCount > 1 then false
      else if (blackHasLightColoredBishop ∨ blackHasDarkColoredBishop) ∧ blackKnightCount ≥ 1 then false
      else true

/-! FEN codec (`fen.go`).  Go strings are `List Char`; `strings.Fields`,
`strings.Split`, `strconv.Atoi` and `strconv.Itoa` are modelled below. -/

/-- Go `unicode.IsSpace` restricted to Latin-1 (the full table extends
beyond U+00A0; FEN data is ASCII, where the two agree). -/
def isSpaceGo (c : Char) : Bool :=
  c = ' ' ∨ c = '\t' ∨ c = '\n' ∨ c = '\x0b' ∨ c = '\x0c' ∨ c = '\r' ∨
    c = '\u0085' ∨ c = '\u00A0'

/-- Worker for `goFields`; `acc` holds the current word reversed. -/
def fieldsAux : List Char → List Char → List (List Char)
  | [], acc => if acc.isEmpty then [] else [acc.reverse]
  | c :: cs, acc =>
    if isSpaceGo c then
      if acc.isEmpty then fieldsAux cs [] else acc.reverse :: fieldsAux cs []
    else fieldsAux cs (c :: acc)

/-- Go `strings.Fields`: split around runs of whitespace. -/
def goFields (s : List Char) : List (List Char) := fieldsAux s []

/-- Worker for `goSplit`; `acc` holds the current piece reversed. -/
def splitAux (sep : Char) : List Char → List Char → List (List Char)
  | [], acc => [acc.reverse]
  | c :: cs, acc =>
    if c = sep then acc.reverse :: splitAux sep cs [] else splitAux sep cs (c :: acc)

/-- Go `strings.Split` with a one-character separator. -/
def goSplit (sep : Char) (s : List Char) : List (List Char) := splitAux sep s []

/-- The Go `PieceRunes` table. -/
def pieceRunes : List Char :=
  ['.', ',', 'P', 'p', 'N', 'n', 'B', 'b', 'R', 'r', 'Q', 'q', 'K', 'k']

/-- Worker for `pieceFromChar`: scan a rune list, returning the index of
the first match (counting from `i`) or `NoPiece = 0`. -/
def findRune (c : Char) : Nat → List Char → Nat
  | _, [] => 0
  | i, r :: rs => if r = c then i else findRune c (i + 1) rs

/-- Go `pieceFromChar`: look `c` up in `PieceRunes[2:]` (the loop starts
at `WP = 2`), returning `NoPiece = 0` when absent. -/
def pieceFromChar (c : Char) : Nat := findRune c 2 (pieceRunes.drop 2)

/-- One rank of the FEN placement field.  Go writes pieces into a zeroed
64-array at `rank*8+file`; building the rank row left-to-right (digits
contribute runs of empty squares) and concatenating the rows bottom-up
later yields the same array.  The `file` counter and its checks follow
the Go loop exactly. -/
def parseRankAux : List Char → Nat → List Nat → Except String (List Nat)
  | [], file, row =>
    if file ≠ 8 then .error "invalid piece placement: rank doesn't have 8 squares"
    else .ok row
  | c :: cs, file, row =>
    if 8 ≤ file then .error "invalid piece placement: too many pieces in rank"
    else if '1' ≤ c ∧ c ≤ '8' then
      parseRankAux cs (file + (c.toNat - 48)) (row ++ List.replicate (c.toNat - 48) 0)
    else
      let piece := pieceFromChar c
      if piece = 0 then .error "invalid piece character in FEN"
      else parseRankAux cs (file + 1) (row ++ [piece])

/-- Parse one rank string into its 8 piece values. -/
def parseRank (cs : List Char) : Except String (List Nat) := parseRankAux cs 0 []

/-- Parse the 8 rank strings in Go's order (rank 8 first). -/
def parseRanks : List (List Char) → Except String (List (List Nat))
  | [] => .ok []
  | r :: rs =>
    match parseRank r with
    | .error e => .error e
    | .ok row =>
      match parseRanks rs with
      | .error e => .error e
      | .ok rows => .ok (row :: rows)

/-- Go `parsePiecePlacement`: split on `/`, demand 8 ranks, and assemble
the 64-entry array (the first rank string is rank 8, hence the
`reverse` before concatenation). -/
def parsePiecePlacement (cs : List Char) : Except String (List Nat) :=
  let ranks := goSplit '/' cs
  if ranks.length ≠ 8 then .error "invalid piece placement: expected 8 ranks"
  else
    match parseRanks ranks with
    | .error e => .error e
    | .ok rows => .ok rows.reverse.join

/-- Go `parseActiveColor`. -/
def parseActiveColor (cs : List Char) : Except String Nat :=
  if cs = ['w'] then .ok 0
  else if cs = ['b'] then .ok 1
  else .error "invalid active color in FEN: expected 'w' or 'b'"

/-- Go `parseCastling`'s letter loop over the castle array (indices
WhiteOOO=0, BlackOOO=1, WhiteOO=2, BlackOO=3; squares A1=0, A8=56,
H1=7, H8=63). -/
def parseCastlingAux : List Char → List Int → Except String (List Int)
  | [], acc => .ok acc
  | c :: cs, acc =>
    if c = 'K' then parseCastlingAux cs (acc.set 2 7)
    else if c = 'Q' then parseCastlingAux cs (acc.set 0 0)
    else if c = 'k' then parseCastlingAux cs (acc.set 3 63)
    else if c = 'q' then parseCastlingAux cs (acc.set 1 56)
    else .error "invalid castling availability in FEN"

/-- Go `parseCastling`: all rights cleared, then `-` or a letter loop. -/
def parseCastling (cs : List Char) : Except String (List Int) :=
  if cs = ['-'] then .ok [-1, -1, -1, -1]
  else parseCastlingAux cs [-1, -1, -1, -1]

/-- Go `squareFromString`: a two-character `a1`-style square or
`NoSquare`. -/
def squareFromChars (cs : List Char) : Int :=
  match cs with
  | [c0, c1] =>
    if c0 < 'a' ∨ 'h' < c0 ∨ c1 < '1' ∨ '8' < c1 then -1
    else mkSquare ((c0.toNat : Int) - 97) ((c1.toNat : Int) - 49)
  | _ => -1

/-- Go `parseEnPassant`. -/
def parseEnPassant (cs : List Char) : Except String Int :=
  if cs = ['-'] then .ok (-1)
  else
    let square := squareFromChars cs
    if square = -1 then .error "invalid en passant target square in FEN"
    else .ok square

/-- Accumulate the decimal value of a digit string; any non-digit makes
the whole string invalid. -/
def digitsValAux : List Char → Nat → Option Nat
  | [], acc => some acc
  | c :: cs, acc =>
    if '0' ≤ c ∧ c ≤ '9' then digitsValAux cs (acc * 10 + (c.toNat - 48)) else none

/-- Value of a nonempty all-digit string. -/
def digitsVal (cs : List Char) : Option Nat :=
  match cs with
  | [] => none
  | _ => digitsValAux cs 0

/-- Go `strconv.Atoi` (64-bit): optional sign, a nonempty digit run, and
the `int64` range check.  Note that a leading `-` is accepted — `Atoi`
performs no non-negativity check. -/
def goAtoi (cs : List Char) : Option Int :=
  match cs with
  | [] => none
  | c :: rest =>
    if c = '+' then
      (digitsVal rest).bind fun n => if n ≤ 2 ^ 63 - 1 then some (n : Int) else none
    else if c = '-' then
      (digitsVal rest).bind fun n => if n ≤ 2 ^ 63 then some (-(n : Int)) else none
    else
      (digitsVal cs).bind fun n => if n ≤ 2 ^ 63 - 1 then some (n : Int) else none

/-- Go `ParseFen` (`fen.go`): six whitespace-separated fields, parsed in
source order with the source error messages; the `Board` starts zeroed,
so `checkFrom = checkTo = A1 = 0`. -/
def ParseFen (cs : List Char) : Except String Board :=
  let parts := goFields cs
  if parts.length ≠ 6 then .error "invalid FEN: expected 6 space-separated fields"
  else
    match parsePiecePlacement (parts.getD 0 []) with
    | .error e => .error e
    | .ok pieces =>
      match parseActiveColor (parts.getD 1 []) with
      | .error e => .error e
      | .ok side =>
        match parseCastling (parts.getD 2 []) with
        | .error e => .error e
        | .ok castles =>
          match parseEnPassant (parts.getD 3 []) with
          | .error e => .error e
          | .ok ep =>
            match goAtoi (parts.getD 4 []) with
            | none => .error "invalid halfmove clock in FEN"
            | some halfmove =>
              match goAtoi (parts.getD 5 []) with
              | none => .error "invalid fullmove number in FEN"
              | some fullmove =>
                .ok ⟨pieces, side, fullmove, halfmove, ep, castles, 0, 0⟩

/-- Decimal digits of a natural number, most significant first, with an
explicit fuel bound (`fuel > n` always suffices, see
`natToCharsFuel_congr`); structural recursion keeps the function
kernel-computable. -/
def natToCharsFuel : Nat → Nat → List Char
  | 0, _ => []
  | fuel + 1, n =>
    if n < 10 then [Char.ofNat (48 + n)]
    else natToCharsFuel fuel (n / 10) ++ [Char.ofNat (48 + n % 10)]

/-- Decimal digits of a natural number, most significant first. -/
def natToChars (n : Nat) : List Char := natToCharsFuel (n + 1) n

/-- Go `strconv.Itoa`. -/
def goItoa (n : Int) : List Char :=
  if n < 0 then '-' :: natToChars (-n).toNat else natToChars n.toNat

/-- The Go `squareNames` table. -/
def squareNames : List String :=
  ["a1", "b1", "c1", "d1", "e1", "f1", "g1", "h1",
   "a2", "b2", "c2", "d2", "e2", "f2", "g2", "h2",
   "a3", "b3", "c3", "d3", "e3", "f3", "g3", "h3",
   "a4", "b4", "c4", "d4", "e4", "f4", "g4", "h4",
   "a5", "b5", "c5", "d5", "e5", "f5", "g5", "h5",
   "a6", "b6", "c6", "d6", "e6", "f6", "g6", "h6",
   "a7", "b7", "c7", "d7", "e7", "f7", "g7", "h7",
   "a8", "b8", "c8", "d8", "e8", "f8", "g8", "h8"]

/-- Go `Sq.String`: `-` for `NoSquare`, else the `squareNames` entry. -/
def sqToChars (sq : Int) : List Char :=
  if sq = -1 then ['-'] else (squareNames.getD sq.toNat "").data

/-- Run-length encode one rank for serialization (Go's `emptyCount`
loop). -/
def fenRankAux : List Nat → Nat → List Char
  | [], emptyCount => if emptyCount > 0 then natToChars emptyCount else []
  | p :: ps, emptyCount =>
    if p = 0 then fenRankAux ps (emptyCount + 1)
    else
      (if emptyCount > 0 then natToChars emptyCount else []) ++
        pieceRunes.getD p '.' :: fenRankAux ps 0

/-- The 8 pieces of rank `r` (Go reads `b.Piece[Square(file, rank)]`). -/
def boardRow (b : Board) (r : Nat) : List Nat :=
  (List.range 8).map fun f => b.Piece.getD (r * 8 + f) 0

/-- Join pieces with a separator (Go writes `/` after every rank but the
last). -/
def joinSep (sep : List Char) : List (List Char) → List Char
  | [] => []
  | [x] => x
  | x :: xs => x ++ sep ++ joinSep sep xs

/-- The placement field of `Fen`: ranks 8 down to 1, `/`-separated. -/
def placementChars (b : Board) : List Char :=
  joinSep ['/'] ((List.range 8).reverse.map fun r => fenRankAux (boardRow b r) 0)

/-- The castling field of `Fen`: the letters `K`, `Q`, `k`, `q` in that
fixed order, each emitted only when the corresponding rook-origin square
still holds its canonical value; `-` when no letter was emitted. -/
def castleChars (b : Board) : List Char :=
  let letters :=
    (if b.CastleSq.getD 2 (-1) = 7 then ['K'] else []) ++
    (if b.CastleSq.getD 0 (-1) = 0 then ['Q'] else []) ++
    (if b.CastleSq.getD 3 (-1) = 63 then ['k'] else []) ++
    (if b.CastleSq.getD 1 (-1) = 56 then ['q'] else [])
  if letters.isEmpty then ['-'] else letters

/-- Go `Board.Fen` (`fen.go`): the six fields joined by single spaces. -/
def FenChars (b : Board) : List Char :=
  placementChars b ++ [' '] ++
    (if b.SideToMove = 0 then ['w'] else ['b']) ++ [' '] ++
    castleChars b ++ [' '] ++
    sqToChars b.EpSquare ++ [' '] ++
    goItoa b.Rule50 ++ [' '] ++
    goItoa b.MoveNr

/-- Boards the serializer can render faithfully: piece values drawn from
the real piece encoding, an en-passant square that is `NoSquare` or on
the board, and counters in the `int64` range (Go would panic or
overflow outside these; every `ParseFen`-produced board satisfies
them). -/
def WFBoard (b : Board) : Prop :=
  (∀ p ∈ b.Piece, p = 0 ∨ (2 ≤ p ∧ p ≤ 13)) ∧
  (b.EpSquare = -1 ∨ (0 ≤ b.EpSquare ∧ b.EpSquare < 64)) ∧
  (-(2 ^ 63) ≤ b.Rule50 ∧ b.Rule50 < 2 ^ 63) ∧
  (-(2 ^ 63) ≤ b.MoveNr ∧ b.MoveNr < 2 ^ 63)

/-- The board `ParseFen` recovers from `Fen b`: the placement re-chunked
into ranks, the side collapsed to 0/1, castle squares kept only when
canonical, and the internal castling markers reset. -/
def normBoard (b : Board) : Board :=
  { Piece := ((List.range 8).map (boardRow b)).join
    SideToMove := if b.SideToMove = 0 then 0 else 1
    MoveNr := b.MoveNr
    Rule50 := b.Rule50
    EpSquare := b.EpSquare
    CastleSq :=
      [if b.CastleSq.getD 0 (-1) = 0 then 0 else -1,
       if b.CastleSq.getD 1 (-1) = 56 then 56 else -1,
       if b.CastleSq.getD 2 (-1) = 7 then 7 else -1,
       if b.CastleSq.getD 3 (-1) = 63 then 63 else -1]
    checkFrom := 0
    checkTo := 0 }

/-! Concrete positions used by the closed counterexample and witness
theorems. -/

/-- Bare kings: white king e1 (square 4), black king e8 (square 60). -/
def kingsPieces : List Nat :=
  List.replicate 4 0 ++ [12] ++ List.replicate 55 0 ++ [13] ++ List.replicate 3 0

/-- The standard starting position. -/
def startBoard : Board :=
  ⟨[8, 4, 6, 10, 12, 6, 4, 8] ++ List.replicate 8 2 ++ List.replicate 32 0 ++
      List.replicate 8 3 ++ [9, 5, 7, 11, 13, 7, 5, 9],
   0, 1, 0, -1, [0, 56, 7, 63], 0, 0⟩

/-- Kings plus two BLACK knights on b2 and c2. -/
def boardBlackTwoKnights : Board :=
  ⟨(kingsPieces.set 9 5).set 10 5, 0, 1, 0, -1, [-1, -1, -1, -1], 0, 0⟩

/-- Kings plus two WHITE knights on b2 and c2. -/
def boardWhiteTwoKnights : Board :=
  ⟨(kingsPieces.set 9 4).set 10 4, 0, 1, 0, -1, [-1, -1, -1, -1], 0, 0⟩

/-- Kings plus a white rook a1 and a black pawn a7; the rook can capture
the pawn with a1a7. -/
def boardRookCapture : Board :=
  ⟨(kingsPieces.set 0 8).set 48 3, 0, 10, 5, -1, [-1, -1, -1, -1], 0, 0⟩

/-- Kings plus a white pawn e5 and a black pawn d5 just after its double
push: the en-passant target is d6 (square 43). -/
def boardEnPassant : Board :=
  ⟨(kingsPieces.set 36 2).set 35 3, 0, 10, 5, 43, [-1, -1, -1, -1], 0, 0⟩

/-- Kings plus a white rook a1 and a white knight b1; a1b1 moves the rook
onto a friendly piece (never generated, but `MakeMove` is total). -/
def boardOwnPieceDest : Board :=
  ⟨(kingsPieces.set 0 8).set 1 4, 0, 10, 5, -1, [-1, -1, -1, -1], 0, 0⟩

/-- Bare kings with Black to move (full-move counter 7). -/
def boardBlackToMove : Board :=
  ⟨kingsPieces, 1, 7, 3, 20, [-1, -1, -1, -1], 0, 0⟩

/-- A Go call `b.MakeMove(m)` observed from the caller: the method has a
VALUE receiver (`func (b Board) MakeMove`), so the callee works on its
own copy and returns (a pointer to) that copy.  The pair is (the
caller's board after the call, the returned board). -/
def makeMoveCall (b : Board) (m : Move) : Board × Board := (b, MakeMove b m)

/-- The enemy piece (relative to `side`) standing on `sq`, or `NoPiece`
when the square is empty or holds a friendly piece. -/
def enemyAt (b : Board) (side : Nat) (sq : Int) : Nat :=
  if pieceAt b sq ≠ 0 ∧ pieceColor (pieceAt b sq) ≠ side then pieceAt b sq else 0

/-- An ordinary capture: an enemy piece stands on the destination.  The
conjuncts under the pawn guard are facts every LEGAL pawn capture
satisfies (a diagonal step is one rank, never onto the en-passant target
— that case is `EpCapture` — and a promotion supplies a promotion piece
of the mover's color); they pin down which `MakeMove` branch runs. -/
def OrdinaryCapture (b : Board) (m : Move) : Prop :=
  pieceAt b m.To ≠ 0 ∧ pieceColor (pieceAt b m.To) ≠ b.SideToMove ∧
  (pieceType (pieceAt b m.From) = 2 →
    m.To ≠ b.EpSquare ∧
    (sqRank m.To - sqRank m.From = 1 ∨ sqRank m.To - sqRank m.From = -1) ∧
    (relativeRank m.To b.SideToMove = 7 →
      m.Promotion ≠ 0 ∧ pieceColor m.Promotion = b.SideToMove))

/-- An en-passant capture: the mover is a pawn stepping one rank onto
the (empty) en-passant target, with the enemy pawn standing on the
destination file at the origin rank — exactly the situation move
generation produces for an en-passant move. -/
def EpCapture (b : Board) (m : Move) : Prop :=
  pieceType (pieceAt b m.From) = 2 ∧ m.To = b.EpSquare ∧
  pieceAt b m.To = 0 ∧
  (sqRank m.To - sqRank m.From = 1 ∨ sqRank m.To - sqRank m.From = -1) ∧
  pieceAt b (mkSquare (sqFile m.To) (sqRank m.From)) = oppPiece b 2

/-- The square whose piece a capturing move removes: the destination,
except for an en-passant capture, where it is the square on the
destination file at the origin rank. -/
def capturedSquare (b : Board) (m : Move) : Int :=
  if pieceType (pieceAt b m.From) = 2 ∧ m.To = b.EpSquare then
    mkSquare (sqFile m.To) (sqRank m.From)
  else m.To

/-! Generic list lemmas used throughout. -/

theorem getD_set_eq {α : Type} (l : List α) (i : Nat) (v d : α) (h : i < l.length) :
    (l.set i v).getD i d = v := by
  induction l generalizing i with
  | nil => simp at h
  | cons a t ih =>
    cases i with
    | zero => rfl
    | succ n => simpa using ih n (by simpa using h)

theorem getD_set_ne {α : Type} (l : List α) (i j : Nat) (v d : α) (h : i ≠ j) :
    (l.set i v).getD j d = l.getD j d := by
  induction l generalizing i j with
  | nil => simp [List.set]
  | cons a t ih =>
    cases i with
    | zero =>
      cases j with
      | zero => exact absurd rfl h
      | succ n => rfl
    | succ n =>
      cases j with
      | zero => rfl
      | succ k => simpa using ih n k (by omega)

theorem getD_set_split {α : Type} (l : List α) (i j : Nat) (v d : α) :
    (l.set i v).getD j d = if i = j ∧ j < l.length then v else l.getD j d := by
  by_cases h : i = j ∧ j < l.length
  · rw [if_pos h]
    exact h.1 ▸ getD_set_eq l j v d h.2
  · rw [if_neg h]
    rcases Decidable.em (i = j) with rfl | hne
    · have hlen : l.length ≤ i := by omega
      rw [List.set_eq_of_length_le hlen]
    · exact getD_set_ne l i j v d hne

theorem getD_map_keepNeg (l : List Int) (i : Nat) (a c : Int)
    (h : l.getD i (-1) = -1) :
    (l.map fun sq => if sq = a ∨ sq = c then -1 else sq).getD i (-1) = -1 := by
  induction l generalizing i with
  | nil => simp
  | cons x t ih =>
    cases i with
    | zero =>
      simp only [List.getD_cons_zero] at h
      subst h
      simp only [List.map_cons, List.getD_cons_zero]
      split <;> rfl
    | succ n =>
      simp only [List.getD_cons_succ] at h
      simpa using ih n h

/-! Projection lemmas for the components of `MakeMove`. -/

theorem pieceAt_with_ep (b : Board) (e cf ct : Int) (sq : Int) :
    pieceAt { b with EpSquare := e, checkFrom := cf, checkTo := ct } sq = pieceAt b sq := rfl

theorem myPiece_with_ep (b : Board) (e cf ct : Int) (k : Nat) :
    myPiece { b with EpSquare := e, checkFrom := cf, checkTo := ct } k = myPiece b k := rfl

theorem switchSide_SideToMove (b : Board) : (switchSide b).SideToMove = b.SideToMove ^^^ 1 := by
  unfold switchSide
  dsimp only
  split <;> rfl

theorem switchSide_CastleSq (b : Board) : (switchSide b).CastleSq = b.CastleSq := by
  unfold switchSide
  dsimp only
  split <;> rfl

theorem switchSide_Rule50 (b : Board) : (switchSide b).Rule50 = b.Rule50 := by
  unfold switchSide
  dsimp only
  split <;> rfl

theorem switchSide_Piece (b : Board) : (switchSide b).Piece = b.Piece := by
  unfold switchSide
  dsimp only
  split <;> rfl

theorem switchSide_EpSquare (b : Board) : (switchSide b).EpSquare = b.EpSquare := by
  unfold switchSide
  dsimp only
  split <;> rfl

theorem switchSide_checkFrom (b : Board) : (switchSide b).checkFrom = b.checkFrom := by
  unfold switchSide
  dsimp only
  split <;> rfl

theorem switchSide_checkTo (b : Board) : (switchSide b).checkTo = b.checkTo := by
  unfold switchSide
  dsimp only
  split <;> rfl

theorem switchSide_MoveNr (b : Board) :
    (switchSide b).MoveNr = if b.SideToMove ^^^ 1 = 0 then b.MoveNr + 1 else b.MoveNr := by
  unfold switchSide
  dsimp only
  split <;> rfl

theorem castleBranch_CastleSq (b : Board) (m : Move) :
    (castleBranch b m).CastleSq =
      (b.CastleSq.set (b.SideToMove ||| 2) (-1)).set (b.SideToMove ||| 0) (-1) := by
  unfold castleBranch
  dsimp only
  split <;> split <;> rfl

theorem castleBranch_Rule50 (b : Board) (m : Move) :
    (castleBranch b m).Rule50 = b.Rule50 + 1 := by
  unfold castleBranch
  dsimp only
  split <;> split <;> rfl

theorem pawnPhase_CastleSq (b : Board) (m : Move) (e : Int) :
    (pawnPhase b m e).CastleSq = b.CastleSq := by
  unfold pawnPhase
  dsimp only
  split_ifs <;> rfl

theorem pawnPhase_Rule50 (b : Board) (m : Move) (e : Int) :
    (pawnPhase b m e).Rule50 = b.Rule50 := by
  unfold pawnPhase
  dsimp only
  split_ifs <;> rfl

theorem pawnPhase_SideToMove (b : Board) (m : Move) (e : Int) :
    (pawnPhase b m e).SideToMove = b.SideToMove := by
  unfold pawnPhase
  dsimp only
  split_ifs <;> rfl

theorem pawnPhase_nonpawn (b : Board) (m : Move) (e : Int)
    (h : pieceType (pieceAt b m.From) ≠ 2) : pawnPhase b m e = b := by
  unfold pawnPhase
  dsimp only
  rw [if_neg h]

theorem defaultBranch_CastleSq (b : Board) (m : Move) (e : Int) :
    (defaultBranch b m e).CastleSq =
      (let cs := b.CastleSq.map (fun sq => if sq = m.From ∨ sq = m.To then -1 else sq)
       if pieceType (pieceAt b m.From) = 12 then
         (cs.set (b.SideToMove ||| 2) (-1)).set (b.SideToMove ||| 0) (-1)
       else cs) := by
  unfold defaultBranch
  dsimp only
  split_ifs with h1 h2 <;>
    simp_all [pawnPhase_CastleSq, pawnPhase_SideToMove]

theorem defaultBranch_Rule50 (b : Board) (m : Move) (e : Int) :
    (defaultBranch b m e).Rule50 =
      if pieceType (pieceAt b m.From) = 2 ∨ pieceAt (pawnPhase b m e) m.To ≠ 0 then 0
      else b.Rule50 + 1 := by
  unfold defaultBranch
  dsimp only
  have hp : ∀ cs : List Int,
      pieceAt { pawnPhase b m e with CastleSq := cs } m.To = pieceAt (pawnPhase b m e) m.To :=
    fun _ => rfl
  split_ifs <;> simp_all [pawnPhase_Rule50]

/-! Claim theorems. -/

/-- C2: `HasInsufficientMaterial` on a king-plus-two-knights-versus-king
configuration.  The claim (and the spec's test fixture) say the result is
false regardless of which color owns the knights, but the Go code scans
Black's pieces with the White constants `WB`/`WN`, so Black's knights are
never counted and the black-owned configuration is wrongly classified as
insufficient. -/
theorem hasInsufficientMaterial_two_knights_asymmetry :
    HasInsufficientMaterial boardBlackTwoKnights = true ∧
    HasInsufficientMaterial boardWhiteTwoKnights = false := ⟨rfl, rfl⟩

/-- C5: the Go `MakeMove` receiver is a value, so the call leaves every
field of the caller's board unchanged and hands back a separately
constructed board. -/
theorem makeMove_receiver_unchanged (b : Board) (m : Move) :
    (makeMoveCall b m).2 = MakeMove b m ∧
    (makeMoveCall b m).1.Piece = b.Piece ∧
    (makeMoveCall b m).1.SideToMove = b.SideToMove ∧
    (makeMoveCall b m).1.MoveNr = b.MoveNr ∧
    (makeMoveCall b m).1.Rule50 = b.Rule50 ∧
    (makeMoveCall b m).1.EpSquare = b.EpSquare ∧
    (makeMoveCall b m).1.CastleSq = b.CastleSq ∧
    (makeMoveCall b m).1.checkFrom = b.checkFrom ∧
    (makeMoveCall b m).1.checkTo = b.checkTo :=
  ⟨rfl, rfl, rfl, rfl, rfl, rfl, rfl, rfl, rfl⟩

/-- C7 (counterexample): a null move played by Black increments the
full-move counter (the side flip makes it White's turn), so the claim
that the counter is identical "including boards where Black is the side
to move" fails on `boardBlackToMove` (counter 7 before, 8 after). -/
theorem makeMove_null_black_movenr_counterexample :
    (MakeMove boardBlackToMove NullMove).MoveNr = 8 ∧
    boardBlackToMove.MoveNr = 7 ∧ (8 : Int) ≠ 7 := by
  refine ⟨rfl, rfl, by decide⟩

/-- C7 (amended): a null move flips the side to move, clears the
en-passant target and resets the internal castling-transit markers;
piece placement, the fifty-move counter and the castling squares are
unchanged, and the full-move counter increments exactly when the move
hands the turn back to White (i.e. when Black played it), as it does
after every move. -/
theorem makeMove_null_frame (b : Board) :
    (MakeMove b NullMove).Piece = b.Piece ∧
    (MakeMove b NullMove).SideToMove = b.SideToMove ^^^ 1 ∧
    (MakeMove b NullMove).EpSquare = -1 ∧
    (MakeMove b NullMove).Rule50 = b.Rule50 ∧
    (MakeMove b NullMove).CastleSq = b.CastleSq ∧
    (MakeMove b NullMove).checkFrom = 0 ∧
    (MakeMove b NullMove).checkTo = 0 ∧
    (MakeMove b NullMove).MoveNr =
      (if b.SideToMove ^^^ 1 = 0 then b.MoveNr + 1 else b.MoveNr) := by
  unfold MakeMove
  dsimp only
  rw [if_pos rfl]
  exact ⟨switchSide_Piece _, switchSide_SideToMove _, switchSide_EpSquare _,
    switchSide_Rule50 _, switchSide_CastleSq _, switchSide_checkFrom _,
    switchSide_checkTo _, switchSide_MoveNr _⟩

/-- C9: a castling right already cleared (`CastleSq[i] = NoSquare`) stays
cleared after any move: `MakeMove` only ever writes the sentinel into
the castle array, never a rook square. -/
theorem makeMove_castle_rights_monotone (b : Board) (m : Move) (i : Nat)
    (h : b.CastleSq.getD i (-1) = -1) :
    (MakeMove b m).CastleSq.getD i (-1) = -1 := by
  unfold MakeMove
  dsimp only
  rw [switchSide_CastleSq]
  split
  · exact h
  · split
    · rw [castleBranch_CastleSq]
      dsimp only
      rw [getD_set_split, getD_set_split]
      split_ifs <;> simp_all
    · rw [defaultBranch_CastleSq]
      dsimp only
      have hmap := getD_map_keepNeg b.CastleSq i m.From m.To h
      split
      · rw [getD_set_split, getD_set_split]
        split_ifs <;> simp_all
      · exact hmap

/-- C9 witness: instantiate the monotonicity theorem on the start
position stripped of White's king-side right. -/
theorem makeMove_castle_rights_monotone_witness :
    (MakeMove { startBoard with CastleSq := [0, 56, -1, 63] } ⟨12, 28, 0⟩).CastleSq.getD 2 (-1) = -1 :=
  makeMove_castle_rights_monotone { startBoard with CastleSq := [0, 56, -1, 63] } ⟨12, 28, 0⟩ 2 rfl

/-- C6 (counterexample): `MakeMove` resets the fifty-move counter
whenever the destination square is occupied at all — Go checks
`b.Piece[m.To] != NoPiece`, not that the piece is an enemy.  Moving the
white rook a1 onto the white knight b1 (never generated, but `MakeMove`
is total over moves) is neither a pawn move nor a capture of an enemy
piece, yet the counter becomes 0 instead of the claimed 5+1. -/
theorem makeMove_rule50_friendly_dest_counterexample :
    (⟨0, 1, 0⟩ : Move) ≠ NullMove ∧
    pieceType (pieceAt boardOwnPieceDest 0) ≠ 2 ∧
    ¬(pieceAt boardOwnPieceDest 1 ≠ 0 ∧
        pieceColor (pieceAt boardOwnPieceDest 1) ≠ boardOwnPieceDest.SideToMove) ∧
    ¬(pieceType (pieceAt boardOwnPieceDest 0) = 2 ∧ (1 : Int) = boardOwnPieceDest.EpSquare) ∧
    boardOwnPieceDest.Rule50 = 5 ∧
    (MakeMove boardOwnPieceDest ⟨0, 1, 0⟩).Rule50 = 0 ∧ (0 : Int) ≠ 5 + 1 := by
  refine ⟨by decide, by decide, by decide, by decide, rfl, rfl, by decide⟩

/-- C6 (amended): for every non-null move whose destination square is
not occupied by a friendly piece — true of every generated move, with
the castling encoding (own king onto own rook) treated by its own branch
— the resulting fifty-move counter is 0 exactly when the mover is a pawn
or the move captures an enemy piece (en-passant captures are pawn moves,
hence also 0), and the prior counter plus one otherwise, castling
included. -/
theorem makeMove_rule50 (b : Board) (m : Move)
    (h0 : m ≠ NullMove)
    (hside : b.SideToMove = 0 ∨ b.SideToMove = 1)
    (hto : pieceAt b m.To = 0 ∨ pieceColor (pieceAt b m.To) ≠ b.SideToMove ∨
        (pieceAt b m.From = myPiece b 12 ∧ pieceAt b m.To = myPiece b 8)) :
    (MakeMove b m).Rule50 =
      if pieceType (pieceAt b m.From) = 2 ∨
          (pieceAt b m.To ≠ 0 ∧ pieceColor (pieceAt b m.To) ≠ b.SideToMove) then 0
      else b.Rule50 + 1 := by
  unfold MakeMove
  dsimp only
  rw [switchSide_Rule50, if_neg h0]
  simp only [pieceAt_with_ep, myPiece_with_ep]
  by_cases hc : pieceAt b m.From = myPiece b 12 ∧ pieceAt b m.To = myPiece b 8
  · rw [if_pos hc, castleBranch_Rule50]
    dsimp only
    have hking : pieceType (pieceAt b m.From) ≠ 2 := by
      rw [hc.1]
      unfold myPiece pieceType
      rcases hside with hs | hs <;> rw [hs] <;> decide
    have hcolor : ¬(pieceAt b m.To ≠ 0 ∧ pieceColor (pieceAt b m.To) ≠ b.SideToMove) := by
      rw [hc.2]
      unfold myPiece pieceColor
      rcases hside with hs | hs <;> rw [hs] <;> decide
    rw [if_neg (by tauto)]
  · rw [if_neg hc, defaultBranch_Rule50]
    simp only [pieceAt_with_ep]
    by_cases hpawn : pieceType (pieceAt b m.From) = 2
    · rw [if_pos (Or.inl hpawn), if_pos (Or.inl hpawn)]
    · have hid : pawnPhase { b with EpSquare := -1, checkFrom := 0, checkTo := 0 } m b.EpSquare =
          { b with EpSquare := -1, checkFrom := 0, checkTo := 0 } :=
        pawnPhase_nonpawn _ m _ hpawn
      rw [hid]
      simp only [pieceAt_with_ep]
      rcases hto with hempty | hcol | hcast
      · rw [if_neg (by simp [hpawn, hempty]), if_neg (by simp [hpawn, hempty])]
      · by_cases hempty : pieceAt b m.To = 0
        · rw [if_neg (by simp [hpawn, hempty]), if_neg (by simp [hpawn, hempty])]
        · rw [if_pos (Or.inr hempty), if_pos (Or.inr ⟨hempty, hcol⟩)]
      · exact absurd hcast hc

/-- C6 witness: the rook capture a1a7 on `boardRookCapture` resets the
counter to 0. -/
theorem makeMove_rule50_witness :
    (MakeMove boardRookCapture ⟨0, 48, 0⟩).Rule50 = 0 := by
  have h := makeMove_rule50 boardRookCapture ⟨0, 48, 0⟩ (by decide) (by decide)
    (by right; left; decide)
  rw [h]
  decide

theorem pairwise_filterMap_sq (fn : Nat → Option GamePiece)
    (hf : ∀ n gp, fn n = some gp → gp.sq = (n : Int)) :
    ∀ l : List Nat, l.Pairwise (· < ·) →
      (l.filterMap fn).Pairwise (fun x y => x.sq < y.sq) := by
  intro l hl
  induction l with
  | nil => simp
  | cons a t ih =>
    rcases List.pairwise_cons.mp hl with ⟨ha, ht⟩
    rw [List.filterMap_cons]
    cases hfn : fn a with
    | none => exact ih ht
    | some gp =>
      refine List.pairwise_cons.mpr ⟨?_, ih ht⟩
      intro y hy
      rcases List.mem_filterMap.mp hy with ⟨n, hn, hyn⟩
      rw [hf a gp hfn, hf n y hyn]
      exact_mod_cast ha n hn

/-- C10: `GetPieceTypes color` lists exactly the (piece, square) pairs
of the occupied squares holding a piece of that color, in ascending
square order from a1 to h8 — and despite the doc comment on the Go
function ("Kings are excluded from the results"), the scan does not skip
kings, so the king of that color is listed too. -/
theorem getPieceTypes_spec (b : Board) (color : Nat) :
    (∀ (p : Nat) (s : Int),
      (⟨p, s⟩ : GamePiece) ∈ GetPieceTypes b color ↔
        ∃ n : Nat, n < 64 ∧ s = (n : Int) ∧ b.Piece.getD n 0 = p ∧ p ≠ 0 ∧
          pieceColor p = color) ∧
    (GetPieceTypes b color).Pairwise (fun x y => x.sq < y.sq) ∧
    (∀ n : Nat, n < 64 → color < 2 → b.Piece.getD n 0 = 12 ||| color →
      (⟨12 ||| color, (n : Int)⟩ : GamePiece) ∈ GetPieceTypes b color) := by
  have hmem : ∀ (p : Nat) (s : Int),
      (⟨p, s⟩ : GamePiece) ∈ GetPieceTypes b color ↔
        ∃ n : Nat, n < 64 ∧ s = (n : Int) ∧ b.Piece.getD n 0 = p ∧ p ≠ 0 ∧
          pieceColor p = color := by
    intro p s
    unfold GetPieceTypes
    rw [List.mem_filterMap]
    constructor
    · rintro ⟨n, hn, hfn⟩
      rw [List.mem_range] at hn
      dsimp only at hfn
      split at hfn
      · exact absurd hfn (by simp)
      · rename_i hcond
        push_neg at hcond
        injection hfn with hgp
        injection hgp with hp hs
        exact ⟨n, hn, hs.symm, hp, by rw [← hp]; exact hcond.1, by rw [← hp]; exact hcond.2⟩
    · rintro ⟨n, hn, hs, hp, hne, hcol⟩
      refine ⟨n, List.mem_range.mpr hn, ?_⟩
      dsimp only
      rw [if_neg (by rw [hp]; push_neg; exact ⟨hne, hcol⟩)]
      rw [hp, hs]
  refine ⟨hmem, ?_, ?_⟩
  · unfold GetPieceTypes
    refine pairwise_filterMap_sq _ ?_ _ (List.pairwise_lt_range 64)
    intro n gp hfn
    dsimp only at hfn
    split at hfn
    · exact absurd hfn (by simp)
    · injection hfn with h
      rw [← h]
  · intro n hn hcolor hp
    refine (hmem (12 ||| color) (n : Int)).mpr ⟨n, hn, rfl, hp, ?_, ?_⟩
    · interval_cases color <;> decide
    · interval_cases color <;> decide

/-- C10 witness: on the starting position the white king e1 (square 4)
is listed by `GetPieceTypes 0`. -/
theorem getPieceTypes_spec_witness :
    (⟨12, (4 : Int)⟩ : GamePiece) ∈ GetPieceTypes startBoard 0 :=
  (getPieceTypes_spec startBoard 0).2.2 4 (by decide) (by decide) (by decide)

/-! Support lemmas for the capture-accounting claim. -/

theorem setPiece_length (l : List Nat) (a : Int) (v : Nat) :
    (setPiece l a v).length = l.length := by
  unfold setPiece
  split <;> simp

theorem pieceAtL_set_eq (l : List Nat) (a : Int) (v : Nat)
    (h0 : 0 ≤ a) (hlt : a < (l.length : Int)) :
    pieceAtL (setPiece l a v) a = v := by
  unfold pieceAtL setPiece
  rw [if_neg (by omega), if_neg (by omega)]
  exact getD_set_eq _ _ _ _ (by omega)

theorem pieceAtL_set_ne (l : List Nat) (a sq : Int) (v : Nat) (h : sq ≠ a) :
    pieceAtL (setPiece l a v) sq = pieceAtL l sq := by
  unfold pieceAtL setPiece
  by_cases ha : a < 0
  · rw [if_pos ha]
  · rw [if_neg ha]
    by_cases hs : sq < 0
    · rw [if_pos hs, if_pos hs]
    · rw [if_neg hs, if_neg hs]
      exact getD_set_ne _ _ _ _ _ (by omega)

theorem oppPiece_with_ep (b : Board) (e cf ct : Int) (k : Nat) :
    oppPiece { b with EpSquare := e, checkFrom := cf, checkTo := ct } k = oppPiece b k := rfl

theorem pieceAt_congr {b₁ b₂ : Board} (h : b₁.Piece = b₂.Piece) (sq : Int) :
    pieceAt b₁ sq = pieceAt b₂ sq := by
  unfold pieceAt
  rw [h]

theorem pawnPhase_Piece_with_ep (b : Board) (e' cf ct : Int) (m : Move) (e : Int) :
    (pawnPhase { b with EpSquare := e', checkFrom := cf, checkTo := ct } m e).Piece =
      (pawnPhase b m e).Piece := by
  unfold pawnPhase
  simp only [pieceAt_with_ep, oppPiece_with_ep]
  split_ifs <;> rfl

theorem defaultBranch_Piece (b : Board) (m : Move) (e : Int) :
    (defaultBranch b m e).Piece =
      setPiece (setPiece (pawnPhase b m e).Piece m.To (pieceAt (pawnPhase b m e) m.From))
        m.From 0 := by
  unfold defaultBranch
  dsimp only
  split_ifs <;> rfl

theorem makeMove_Piece (b : Board) (m : Move) (h0 : m ≠ NullMove)
    (hc : ¬(pieceAt b m.From = myPiece b 12 ∧ pieceAt b m.To = myPiece b 8)) :
    (MakeMove b m).Piece =
      setPiece (setPiece (pawnPhase b m b.EpSquare).Piece m.To
        (pieceAt (pawnPhase b m b.EpSquare) m.From)) m.From 0 := by
  unfold MakeMove
  dsimp only
  rw [switchSide_Piece, if_neg h0]
  rw [if_neg (by simpa only [pieceAt_with_ep, myPiece_with_ep] using hc)]
  rw [defaultBranch_Piece]
  rw [pawnPhase_Piece_with_ep b (-1) 0 0 m b.EpSquare,
    pieceAt_congr (pawnPhase_Piece_with_ep b (-1) 0 0 m b.EpSquare)]

/-- C4: a legal capturing move removes exactly one enemy piece — the one
on `capturedSquare`: an enemy piece stood there, none stands there
afterwards, the enemy content of every other square is untouched, and
for an en-passant capture the square is the (destination-file,
origin-rank) square, different from the destination, while for an
ordinary capture it is the destination itself. -/
theorem makeMove_capture_accounting (b : Board) (m : Move)
    (hside : b.SideToMove = 0 ∨ b.SideToMove = 1)
    (hlen : b.Piece.length = 64)
    (hfrom : 0 ≤ m.From ∧ m.From < 64)
    (hto : 0 ≤ m.To ∧ m.To < 64)
    (hmover : pieceAt b m.From ≠ 0 ∧ pieceColor (pieceAt b m.From) = b.SideToMove)
    (hcap : OrdinaryCapture b m ∨ EpCapture b m) :
    enemyAt b b.SideToMove (capturedSquare b m) ≠ 0 ∧
    enemyAt (MakeMove b m) b.SideToMove (capturedSquare b m) = 0 ∧
    (∀ sq : Int, sq ≠ capturedSquare b m →
      enemyAt (MakeMove b m) b.SideToMove sq = enemyAt b b.SideToMove sq) ∧
    (EpCapture b m →
      capturedSquare b m = mkSquare (sqFile m.To) (sqRank m.From) ∧
      capturedSquare b m ≠ m.To) ∧
    (OrdinaryCapture b m → capturedSquare b m = m.To) := by
  obtain ⟨hm0, hm64⟩ := hfrom
  obtain ⟨ht0, ht64⟩ := hto
  have hnn : m ≠ NullMove := by
    intro h
    subst h
    exact absurd hm0 (by decide)
  have hmyRookNe : pieceColor (myPiece b 8) = b.SideToMove := by
    unfold myPiece pieceColor
    rcases hside with hs | hs <;> rw [hs] <;> decide
  have hmyRook0 : myPiece b 8 ≠ 0 := by
    unfold myPiece
    rcases hside with hs | hs <;> rw [hs] <;> decide
  have hOpp0 : oppPiece b 2 ≠ 0 := by
    unfold oppPiece
    rcases hside with hs | hs <;> rw [hs] <;> decide
  have hOppCol : pieceColor (oppPiece b 2) ≠ b.SideToMove := by
    unfold oppPiece pieceColor
    rcases hside with hs | hs <;> rw [hs] <;> decide
  have hcastle : ¬(pieceAt b m.From = myPiece b 12 ∧ pieceAt b m.To = myPiece b 8) := by
    rintro ⟨h1, h2⟩
    rcases hcap with hord | hep
    · exact hord.2.1 (by rw [h2]; exact hmyRookNe)
    · have h3 := hep.2.2.1
      rw [h2] at h3
      exact hmyRook0 h3
  have hPieceEq := makeMove_Piece b m hnn hcastle
  have hplen : (pawnPhase b m b.EpSquare).Piece.length = 64 := by
    unfold pawnPhase
    dsimp only
    split_ifs <;> simp [setPiece_length, hlen]
  have hmlen : (MakeMove b m).Piece.length = 64 := by
    rw [hPieceEq, setPiece_length, setPiece_length, hplen]
  have hAtFrom : pieceAt (MakeMove b m) m.From = 0 := by
    unfold pieceAt
    rw [hPieceEq]
    exact pieceAtL_set_eq _ _ _ hm0 (by rw [setPiece_length, hplen]; omega)
  have hNotFrom : ¬(pieceAt b m.From ≠ 0 ∧ pieceColor (pieceAt b m.From) ≠ b.SideToMove) :=
    fun h => h.2 hmover.2
  -- the two capture shapes
  rcases hcap with hord | hep
  · -- ordinary capture
    obtain ⟨hToNe, hToCol, hPawnSide⟩ := hord
    have hfrom_ne_to : m.From ≠ m.To := by
      intro h
      rw [h] at hmover
      exact hToCol (hmover.2 ▸ rfl)
    have hnotep : ¬(pieceType (pieceAt b m.From) = 2 ∧ m.To = b.EpSquare) := by
      rintro ⟨hp, he⟩
      exact (hPawnSide hp).1 he
    have hcsq : capturedSquare b m = m.To := by
      unfold capturedSquare
      rw [if_neg hnotep]
    -- the pawn phase leaves every square except possibly m.From unchanged,
    -- and the relocated piece has the mover's color
    have hshape :
        pieceColor (pieceAt (pawnPhase b m b.EpSquare) m.From) = b.SideToMove ∧
        (∀ sq : Int, sq ≠ m.From →
          pieceAt (pawnPhase b m b.EpSquare) sq = pieceAt b sq) := by
      by_cases hpawn : pieceType (pieceAt b m.From) = 2
      · obtain ⟨hneEp, hdy, hpromo⟩ := hPawnSide hpawn
        have hdy2 : ¬(sqRank m.To - sqRank m.From = 2 ∨ sqRank m.To - sqRank m.From = -2) := by
          rcases hdy with h | h <;> omega
        by_cases hr7 : relativeRank m.To b.SideToMove = 7
        · have hpp : pawnPhase b m b.EpSquare =
              { b with Piece := setPiece b.Piece m.From m.Promotion } := by
            unfold pawnPhase
            dsimp only
            rw [if_pos hpawn, if_neg hdy2, if_neg hneEp, if_pos hr7]
          rw [hpp]
          constructor
          · show pieceColor (pieceAtL (setPiece b.Piece m.From m.Promotion) m.From) = _
            rw [pieceAtL_set_eq _ _ _ hm0 (by omega)]
            exact (hpromo hr7).2
          · intro sq hsq
            show pieceAtL (setPiece b.Piece m.From m.Promotion) sq = pieceAtL b.Piece sq
            exact pieceAtL_set_ne _ _ _ _ hsq
        · have hpp : pawnPhase b m b.EpSquare = b := by
            unfold pawnPhase
            dsimp only
            rw [if_pos hpawn, if_neg hdy2, if_neg hneEp, if_neg hr7]
          rw [hpp]
          exact ⟨hmover.2, fun _ _ => rfl⟩
      · rw [pawnPhase_nonpawn b m b.EpSquare hpawn]
        exact ⟨hmover.2, fun _ _ => rfl⟩
    obtain ⟨hvcol, hframe⟩ := hshape
    have hAtTo : pieceAt (MakeMove b m) m.To = pieceAt (pawnPhase b m b.EpSquare) m.From := by
      unfold pieceAt
      rw [hPieceEq]
      rw [pieceAtL_set_ne _ _ _ _ (Ne.symm hfrom_ne_to)]
      exact pieceAtL_set_eq _ _ _ ht0 (by rw [hplen]; omega)
    have hAtOther : ∀ sq : Int, sq ≠ m.From → sq ≠ m.To →
        pieceAt (MakeMove b m) sq = pieceAt b sq := by
      intro sq h1 h2
      have : pieceAt (MakeMove b m) sq = pieceAt (pawnPhase b m b.EpSquare) sq := by
        unfold pieceAt
        rw [hPieceEq, pieceAtL_set_ne _ _ _ _ h1, pieceAtL_set_ne _ _ _ _ h2]
      rw [this, hframe sq h1]
    rw [hcsq]
    refine ⟨?_, ?_, ?_, ?_, fun _ => rfl⟩
    · unfold enemyAt
      rw [if_pos ⟨hToNe, hToCol⟩]
      exact hToNe
    · unfold enemyAt
      rw [hAtTo, if_neg (fun h => h.2 hvcol)]
    · intro sq hsq
      unfold enemyAt
      by_cases hsf : sq = m.From
      · subst hsf
        rw [hAtFrom, if_neg (by simp), if_neg hNotFrom]
      · rw [hAtOther sq hsf hsq]
    · intro hep
      exact absurd hep.2.2.1 hToNe
  · -- en-passant capture
    obtain ⟨hpawn, hToEp, hToEmpty, hdy, hcapPawn⟩ := hep
    have hfrom_ne_to : m.From ≠ m.To := by
      intro h
      rw [h] at hmover
      exact hmover.1 hToEmpty
    have hfile : sqFile m.To = m.To % 8 := by
      unfold sqFile
      rw [Int.tmod_eq_emod ht0 (by norm_num)]
    have hrankF : sqRank m.From = m.From / 8 := by
      unfold sqRank
      rw [Int.tdiv_eq_ediv hm0 (by norm_num)]
    have hrankT : sqRank m.To = m.To / 8 := by
      unfold sqRank
      rw [Int.tdiv_eq_ediv ht0 (by norm_num)]
    have hdy' : m.To / 8 - m.From / 8 = 1 ∨ m.To / 8 - m.From / 8 = -1 := by
      rw [hrankT, hrankF] at hdy
      exact hdy
    have hcsqval : mkSquare (sqFile m.To) (sqRank m.From) = (m.From / 8) * 8 + m.To % 8 := by
      unfold mkSquare
      rw [hfile, hrankF, if_neg (by omega)]
    have hcsq : capturedSquare b m = mkSquare (sqFile m.To) (sqRank m.From) := by
      unfold capturedSquare
      rw [if_pos ⟨hpawn, hToEp⟩]
    have hc0 : 0 ≤ mkSquare (sqFile m.To) (sqRank m.From) := by rw [hcsqval]; omega
    have hc64 : mkSquare (sqFile m.To) (sqRank m.From) < 64 := by rw [hcsqval]; omega
    have hcne_to : mkSquare (sqFile m.To) (sqRank m.From) ≠ m.To := by
      rw [hcsqval]
      omega
    have hcne_from : mkSquare (sqFile m.To) (sqRank m.From) ≠ m.From := by
      intro h
      rw [← h, hcapPawn] at hmover
      exact hOppCol hmover.2
    have hdy2 : ¬(sqRank m.To - sqRank m.From = 2 ∨ sqRank m.To - sqRank m.From = -2) := by
      rcases hdy with h | h <;> omega
    have hppPiece : (pawnPhase b m b.EpSquare).Piece =
        setPiece (setPiece b.Piece (mkSquare (sqFile m.To) (sqRank m.From)) 0) b.EpSquare
          (oppPiece b 2) := by
      unfold pawnPhase
      dsimp only
      rw [if_pos hpawn, if_neg hdy2, if_pos hToEp]
    have hv : pieceAt (pawnPhase b m b.EpSquare) m.From = pieceAt b m.From := by
      unfold pieceAt
      rw [hppPiece]
      rw [pieceAtL_set_ne _ _ _ _ (by rw [← hToEp]; exact hfrom_ne_to),
        pieceAtL_set_ne _ _ _ _ (Ne.symm hcne_from)]
    have hAtCap : pieceAt (MakeMove b m) (mkSquare (sqFile m.To) (sqRank m.From)) = 0 := by
      unfold pieceAt
      rw [hPieceEq, pieceAtL_set_ne _ _ _ _ hcne_from, pieceAtL_set_ne _ _ _ _ hcne_to,
        hppPiece, pieceAtL_set_ne _ _ _ _ (by rw [← hToEp]; exact hcne_to)]
      exact pieceAtL_set_eq _ _ _ hc0 (by omega)
    have hAtTo : pieceAt (MakeMove b m) m.To = pieceAt b m.From := by
      unfold pieceAt
      rw [hPieceEq, pieceAtL_set_ne _ _ _ _ (Ne.symm hfrom_ne_to),
        pieceAtL_set_eq _ _ _ ht0 (by rw [hplen]; omega)]
      exact hv
    have hAtOther : ∀ sq : Int, sq ≠ m.From → sq ≠ m.To →
        sq ≠ mkSquare (sqFile m.To) (sqRank m.From) →
        pieceAt (MakeMove b m) sq = pieceAt b sq := by
      intro sq h1 h2 h3
      unfold pieceAt
      rw [hPieceEq, pieceAtL_set_ne _ _ _ _ h1, pieceAtL_set_ne _ _ _ _ h2, hppPiece,
        pieceAtL_set_ne _ _ _ _ (by rw [← hToEp]; exact h2), pieceAtL_set_ne _ _ _ _ h3]
    rw [hcsq]
    refine ⟨?_, ?_, ?_, fun _ => ⟨rfl, hcne_to⟩, fun hord => absurd hToEmpty hord.1⟩
    · unfold enemyAt
      rw [hcapPawn, if_pos ⟨hOpp0, hOppCol⟩]
      exact hOpp0
    · unfold enemyAt
      rw [hAtCap, if_neg (by simp)]
    · intro sq hsq
      unfold enemyAt
      by_cases hsf : sq = m.From
      · subst hsf
        rw [hAtFrom, if_neg (by simp), if_neg hNotFrom]
      · by_cases hst : sq = m.To
        · subst hst
          rw [hAtTo, if_neg (fun h => h.2 hmover.2), if_neg (by rw [hToEmpty]; simp)]
        · rw [hAtOther sq hsf hst hsq]

/-- C4 witness: the rook capture a1a7 on `boardRookCapture` (an ordinary
capture) removes the black pawn on a7 (square 48) and nothing else. -/
theorem makeMove_capture_accounting_witness :
    enemyAt boardRookCapture boardRookCapture.SideToMove
        (capturedSquare boardRookCapture ⟨0, 48, 0⟩) ≠ 0 ∧
    enemyAt (MakeMove boardRookCapture ⟨0, 48, 0⟩) boardRookCapture.SideToMove
        (capturedSquare boardRookCapture ⟨0, 48, 0⟩) = 0 := by
  have h := makeMove_capture_accounting boardRookCapture ⟨0, 48, 0⟩ (by decide) (by decide)
    (by decide) (by decide) (by decide) (Or.inl (by unfold OrdinaryCapture; decide))
  exact ⟨h.1, h.2.1⟩

/-- C8 (counterexample): `strconv.Atoi` accepts a leading minus sign and
`ParseFen` performs no sign check, so a FEN whose half-move clock is
`-1` parses successfully (with `Rule50 = -1`) instead of being
rejected. -/
theorem parseFen_negative_halfmove_accepted :
    (ParseFen ("4k3/8/8/8/8/8/8/4K3 w - - -1 1").data).map Board.Rule50 =
      .ok (-1) := by rfl

/-- C8 (amended): the half-move and full-move fields are parsed with
`strconv.Atoi`: any string `Atoi` rejects (non-numeric text in
particular) makes `ParseFen` return an error, and whenever `ParseFen`
succeeds the two counters hold exactly the `Atoi` values of fields 5 and
6 — including negative values, which are accepted because no
non-negativity check is performed. -/
theorem parseFen_counter_fields (f : List Char)
    (hlen : (goFields f).length = 6) :
    ((goAtoi ((goFields f).getD 4 []) = none ∨ goAtoi ((goFields f).getD 5 []) = none) →
      ∃ e, ParseFen f = .error e) ∧
    (∀ b2 : Board, ParseFen f = .ok b2 →
      goAtoi ((goFields f).getD 4 []) = some b2.Rule50 ∧
      goAtoi ((goFields f).getD 5 []) = some b2.MoveNr) := by
  unfold ParseFen
  dsimp only
  rw [if_neg (by omega)]
  cases h0 : parsePiecePlacement ((goFields f).getD 0 []) with
  | error e0 => exact ⟨fun _ => ⟨e0, rfl⟩, fun b2 hb => absurd hb (by simp)⟩
  | ok pl =>
    cases h1 : parseActiveColor ((goFields f).getD 1 []) with
    | error e1 => exact ⟨fun _ => ⟨e1, rfl⟩, fun b2 hb => absurd hb (by simp)⟩
    | ok side =>
      cases h2 : parseCastling ((goFields f).getD 2 []) with
      | error e2 => exact ⟨fun _ => ⟨e2, rfl⟩, fun b2 hb => absurd hb (by simp)⟩
      | ok castles =>
        cases h3 : parseEnPassant ((goFields f).getD 3 []) with
        | error e3 => exact ⟨fun _ => ⟨e3, rfl⟩, fun b2 hb => absurd hb (by simp)⟩
        | ok ep =>
          cases h4 : goAtoi ((goFields f).getD 4 []) with
          | none => exact ⟨fun _ => ⟨_, rfl⟩, fun b2 hb => absurd hb (by simp)⟩
          | some v4 =>
            cases h5 : goAtoi ((goFields f).getD 5 []) with
            | none => exact ⟨fun _ => ⟨_, rfl⟩, fun b2 hb => absurd hb (by simp)⟩
            | some v5 =>
              refine ⟨fun hcon => ?_, fun b2 hb => ?_⟩
              · rcases hcon with hc | hc <;> exact absurd hc (by simp)
              · injection hb with hb
                rw [← hb]
                exact ⟨rfl, rfl⟩

/-- C8 witness: a FEN with non-numeric text `x` in the half-move field
is rejected. -/
theorem parseFen_counter_fields_witness :
    ∃ e, ParseFen ("4k3/8/8/8/8/8/8/4K3 w - - x 1").data = .error e :=
  (parseFen_counter_fields ("4k3/8/8/8/8/8/8/4K3 w - - x 1").data (by decide)).1
    (Or.inl (by decide))

/-- C1 (counterexample): the parser accepts the castling field `qK`
(letters out of the canonical order), but the serializer always emits
the letters in the fixed order `K,Q,k,q`, so the round trip is not
byte-for-byte on this accepted input. -/
theorem fen_roundtrip_not_exact :
    (ParseFen ("4k3/8/8/8/8/8/8/4K3 w qK - 0 1").data).map FenChars =
      .ok ("4k3/8/8/8/8/8/8/4K3 w Kq - 0 1").data ∧
    ("4k3/8/8/8/8/8/8/4K3 w Kq - 0 1").data ≠ ("4k3/8/8/8/8/8/8/4K3 w qK - 0 1").data := by
  exact ⟨rfl, by decide⟩

theorem natToCharsFuel_congr : ∀ (f1 f2 n : Nat), n < f1 → n < f2 →
    natToCharsFuel f1 n = natToCharsFuel f2 n := by
  intro f1
  induction f1 with
  | zero => intro f2 n h1; omega
  | succ f ih =>
    intro f2 n h1 h2
    cases f2 with
    | zero => omega
    | succ g =>
      simp only [natToCharsFuel]
      split
      · rfl
      · rename_i h10
        have hd : n / 10 < n := Nat.div_lt_self (by omega) (by omega)
        rw [ih g (n / 10) (by omega) (by omega)]

theorem natToChars_eq (n : Nat) :
    natToChars n =
      if n < 10 then [Char.ofNat (48 + n)]
      else natToChars (n / 10) ++ [Char.ofNat (48 + n % 10)] := by
  unfold natToChars
  conv_lhs => rw [natToCharsFuel]
  split
  · rfl
  · rename_i h10
    have hd : n / 10 < n := Nat.div_lt_self (by omega) (by omega)
    rw [natToCharsFuel_congr n (n / 10 + 1) (n / 10) (by omega) (by omega)]

theorem natToChars_toNat : ∀ n : Nat, ∀ c ∈ natToChars n, 48 ≤ c.toNat ∧ c.toNat ≤ 57 := by
  intro n
  induction n using Nat.strong_induction_on with
  | _ n ih =>
    intro c hc
    rw [natToChars_eq] at hc
    split at hc
    · rename_i h10
      simp only [List.mem_singleton] at hc
      subst hc
      have : ∀ k : Nat, k < 10 → 48 ≤ (Char.ofNat (48 + k)).toNat ∧ (Char.ofNat (48 + k)).toNat ≤ 57 := by decide
      exact this n h10
    · rename_i h10
      rcases List.mem_append.mp hc with h | h
      · exact ih (n / 10) (Nat.div_lt_self (by omega) (by omega)) c h
      · simp only [List.mem_singleton] at h
        subst h
        have : ∀ k : Nat, k < 10 → 48 ≤ (Char.ofNat (48 + k)).toNat ∧ (Char.ofNat (48 + k)).toNat ≤ 57 := by decide
        exact this (n % 10) (by omega)

theorem natToChars_ne_nil (n : Nat) : natToChars n ≠ [] := by
  rw [natToChars_eq]
  split
  · simp
  · simp

theorem digitsValAux_append (xs ys : List Char) (acc : Nat) :
    digitsValAux (xs ++ ys) acc =
      match digitsValAux xs acc with
      | some v => digitsValAux ys v
      | none => none := by
  induction xs generalizing acc with
  | nil => rfl
  | cons c t ih =>
    simp only [List.cons_append, digitsValAux]
    split
    · exact ih _
    · rfl

theorem digitsValAux_natToChars : ∀ n acc : Nat,
    digitsValAux (natToChars n) acc = some (acc * 10 ^ (natToChars n).length + n) := by
  intro n
  induction n using Nat.strong_induction_on with
  | _ n ih =>
    intro acc
    rw [natToChars_eq]
    split
    · rename_i h10
      have hchar : ∀ k : Nat, k < 10 →
          (('0' ≤ Char.ofNat (48 + k) ∧ Char.ofNat (48 + k) ≤ '9') ∧
            (Char.ofNat (48 + k)).toNat - 48 = k) := by decide
      simp only [digitsValAux, List.length_singleton]
      rw [if_pos (hchar n h10).1, (hchar n h10).2]
      simp [pow_succ]
    · rename_i h10
      have hd : n / 10 < n := Nat.div_lt_self (by omega) (by omega)
      rw [digitsValAux_append, ih (n / 10) hd acc]
      have hchar : ∀ k : Nat, k < 10 →
          (('0' ≤ Char.ofNat (48 + k) ∧ Char.ofNat (48 + k) ≤ '9') ∧
            (Char.ofNat (48 + k)).toNat - 48 = k) := by decide
      simp only [digitsValAux]
      rw [if_pos (hchar (n % 10) (by omega)).1, (hchar (n % 10) (by omega)).2]
      simp only [List.length_append, List.length_singleton]
      congr 1
      rw [pow_succ, ← mul_assoc]
      omega



theorem natToChars_head_digit (m : Nat) :
    ∃ c rest, natToChars m = c :: rest ∧ 48 ≤ c.toNat ∧ c.toNat ≤ 57 := by
  cases h : natToChars m with
  | nil => exact absurd h (natToChars_ne_nil m)
  | cons c rest =>
    refine ⟨c, rest, rfl, ?_⟩
    exact natToChars_toNat m c (h ▸ List.mem_cons_self c rest)

theorem digitsVal_natToChars (m : Nat) : digitsVal (natToChars m) = some m := by
  obtain ⟨c, rest, hcr, -, -⟩ := natToChars_head_digit m
  unfold digitsVal
  rw [hcr]
  dsimp only
  rw [← hcr, digitsValAux_natToChars]
  simp

theorem goAtoi_goItoa (n : Int) (h1 : -(2 ^ 63) ≤ n) (h2 : n < 2 ^ 63) :
    goAtoi (goItoa n) = some n := by
  unfold goItoa
  by_cases hn : n < 0
  · rw [if_pos hn]
    show goAtoi ('-' :: natToChars (-n).toNat) = some n
    unfold goAtoi
    dsimp only
    rw [if_neg (by decide), if_pos rfl, digitsVal_natToChars]
    show (if (-n).toNat ≤ 2 ^ 63 then some (-((-n).toNat : Int)) else none) = some n
    rw [if_pos (by omega)]
    rw [Int.toNat_of_nonneg (by omega)]
    norm_num
  · rw [if_neg hn]
    obtain ⟨c, rest, hcr, hc1, hc2⟩ := natToChars_head_digit n.toNat
    rw [hcr]
    unfold goAtoi
    dsimp only
    rw [if_neg (by intro h; rw [h] at hc1; exact absurd hc1 (by decide)),
      if_neg (by intro h; rw [h] at hc1; exact absurd hc1 (by decide))]
    rw [← hcr, digitsVal_natToChars]
    show (if n.toNat ≤ 2 ^ 63 - 1 then some ((n.toNat : Int)) else none) = some n
    rw [if_pos (by omega), Int.toNat_of_nonneg (by omega)]



theorem fieldsAux_nil (acc : List Char) :
    fieldsAux [] acc = if acc.isEmpty then [] else [acc.reverse] := rfl

theorem fieldsAux_space (cs acc : List Char) :
    fieldsAux (' ' :: cs) acc =
      if acc.isEmpty then fieldsAux cs [] else acc.reverse :: fieldsAux cs [] := rfl

theorem fieldsAux_nonspace_append (w : List Char) :
    ∀ (rest acc : List Char), (∀ c ∈ w, isSpaceGo c = false) →
      fieldsAux (w ++ rest) acc = fieldsAux rest (w.reverse ++ acc) := by
  induction w with
  | nil => intro rest acc _; simp
  | cons c t ih =>
    intro rest acc hw
    have hc : isSpaceGo c = false := hw c (List.mem_cons_self c t)
    show fieldsAux (c :: (t ++ rest)) acc = _
    have hstep : fieldsAux (c :: (t ++ rest)) acc = fieldsAux (t ++ rest) (c :: acc) := by
      show (if isSpaceGo c = true then _ else fieldsAux (t ++ rest) (c :: acc)) = _
      rw [if_neg (by simp [hc])]
    rw [hstep, ih rest (c :: acc) (fun x hx => hw x (List.mem_cons_of_mem c hx))]
    simp

theorem goFields_word (p : List Char) (hne : p ≠ [])
    (hns : ∀ c ∈ p, isSpaceGo c = false) : goFields p = [p] := by
  unfold goFields
  have h := fieldsAux_nonspace_append p [] [] hns
  rw [List.append_nil] at h
  rw [h, fieldsAux_nil, if_neg (by simpa using hne)]
  simp

theorem goFields_word_cons (p rest : List Char) (hne : p ≠ [])
    (hns : ∀ c ∈ p, isSpaceGo c = false) :
    goFields (p ++ ' ' :: rest) = p :: goFields rest := by
  unfold goFields
  rw [fieldsAux_nonspace_append p (' ' :: rest) [] hns, fieldsAux_space,
    if_neg (by simpa using hne)]
  simp

theorem splitAux_nil (sep : Char) (acc : List Char) :
    splitAux sep [] acc = [acc.reverse] := rfl

theorem splitAux_sep_cons (sep : Char) (cs acc : List Char) :
    splitAux sep (sep :: cs) acc = acc.reverse :: splitAux sep cs [] := by
  show (if sep = sep then acc.reverse :: splitAux sep cs [] else splitAux sep cs (sep :: acc)) = _
  rw [if_pos rfl]

theorem splitAux_nonsep_append (sep : Char) (w : List Char) :
    ∀ (rest acc : List Char), (∀ c ∈ w, c ≠ sep) →
      splitAux sep (w ++ rest) acc = splitAux sep rest (w.reverse ++ acc) := by
  induction w with
  | nil => intro rest acc _; simp
  | cons c t ih =>
    intro rest acc hw
    show splitAux sep (c :: (t ++ rest)) acc = _
    have hstep : splitAux sep (c :: (t ++ rest)) acc = splitAux sep (t ++ rest) (c :: acc) := by
      show (if c = sep then _ else splitAux sep (t ++ rest) (c :: acc)) = _
      rw [if_neg (hw c (List.mem_cons_self c t))]
    rw [hstep, ih rest (c :: acc) (fun x hx => hw x (List.mem_cons_of_mem c hx))]
    simp

theorem goSplit_word (sep : Char) (p : List Char)
    (hns : ∀ c ∈ p, c ≠ sep) : goSplit sep p = [p] := by
  unfold goSplit
  have h := splitAux_nonsep_append sep p [] [] hns
  rw [List.append_nil] at h
  rw [h, splitAux_nil]
  simp

theorem goSplit_word_cons (sep : Char) (p rest : List Char)
    (hns : ∀ c ∈ p, c ≠ sep) :
    goSplit sep (p ++ sep :: rest) = p :: goSplit sep rest := by
  unfold goSplit
  rw [splitAux_nonsep_append sep p (sep :: rest) [] hns, splitAux_sep_cons]
  simp



theorem digit_char_checks : ∀ e : Nat, e < 9 → 1 ≤ e →
    (('1' ≤ Char.ofNat (48 + e) ∧ Char.ofNat (48 + e) ≤ '8') ∧
      (Char.ofNat (48 + e)).toNat - 48 = e) := by decide

theorem piece_char_checks : ∀ p : Nat, p < 14 → 2 ≤ p →
    (¬('1' ≤ pieceRunes.getD p '.' ∧ pieceRunes.getD p '.' ≤ '8') ∧
      pieceFromChar (pieceRunes.getD p '.') = p ∧ pieceRunes.getD p '.' ≠ '/' ∧
      isSpaceGo (pieceRunes.getD p '.') = false) := by decide

theorem parseRankAux_fenRankAux :
    ∀ (row : List Nat) (e file : Nat) (acc : List Nat),
      (∀ p ∈ row, p = 0 ∨ (2 ≤ p ∧ p ≤ 13)) →
      file + e + row.length = 8 →
      parseRankAux (fenRankAux row e) file acc =
        .ok (acc ++ List.replicate e 0 ++ row) := by
  intro row
  induction row with
  | nil =>
    intro e file acc _ hinv
    simp only [List.length_nil] at hinv
    by_cases he : e = 0
    · subst he
      simp only [fenRankAux]
      rw [if_neg (by omega)]
      simp only [parseRankAux]
      rw [if_neg (by omega)]
      simp
    · have hd := digit_char_checks e (by omega) (by omega)
      simp only [fenRankAux]
      rw [if_pos (by omega), natToChars_eq, if_pos (by omega)]
      simp only [parseRankAux]
      rw [if_neg (by omega), if_pos hd.1, hd.2, if_neg (by omega)]
      simp
  | cons p ps ih =>
    intro e file acc hvalid hinv
    simp only [List.length_cons] at hinv
    rcases hvalid p (List.mem_cons_self p ps) with hp0 | hp2
    · subst hp0
      simp only [fenRankAux]
      rw [if_pos trivial]
      rw [ih (e + 1) file acc (fun q hq => hvalid q (List.mem_cons_of_mem _ hq)) (by omega)]
      rw [List.replicate_succ']
      simp [List.append_assoc]
    · have hchecks := piece_char_checks p (by omega) (by omega)
      have hrec := ih 0 (file + e + 1) (acc ++ List.replicate e 0 ++ [p])
        (fun q hq => hvalid q (List.mem_cons_of_mem _ hq)) (by omega)
      by_cases he : e = 0
      · subst he
        simp only [fenRankAux]
        rw [if_neg (by omega), if_neg (by omega)]
        simp only [List.nil_append, parseRankAux]
        rw [if_neg (by omega), if_neg hchecks.1, hchecks.2.1, if_neg (by omega)]
        simpa using hrec
      · have hd := digit_char_checks e (by omega) (by omega)
        simp only [fenRankAux]
        rw [if_neg (by omega), if_pos (by omega), natToChars_eq, if_pos (by omega)]
        simp only [List.cons_append, List.singleton_append, parseRankAux]
        rw [if_neg (by omega), if_pos hd.1, hd.2, if_neg (by omega), if_neg hchecks.1,
          hchecks.2.1, if_neg (by omega)]
        simpa [List.append_assoc] using hrec

theorem parseRank_fenRank (row : List Nat)
    (hvalid : ∀ p ∈ row, p = 0 ∨ (2 ≤ p ∧ p ≤ 13))
    (hlen : row.length = 8) :
    parseRank (fenRankAux row 0) = .ok row := by
  unfold parseRank
  rw [parseRankAux_fenRankAux row 0 0 [] hvalid (by omega)]
  simp



theorem digit_toNat_class (c : Char) (h1 : 48 ≤ c.toNat) (h2 : c.toNat ≤ 57) :
    isSpaceGo c = false ∧ c ≠ '/' := by
  constructor
  · unfold isSpaceGo
    rw [decide_eq_false_iff_not]
    rintro (h | h | h | h | h | h | h | h) <;>
      (rw [h] at h1 h2; revert h1 h2; decide)
  · intro h
    rw [h] at h1
    exact absurd h1 (by decide)

theorem minus_char_class : isSpaceGo '-' = false ∧ '-' ≠ '/' := by decide

theorem fenRankAux_chars : ∀ (row : List Nat) (e : Nat),
    (∀ p ∈ row, p = 0 ∨ (2 ≤ p ∧ p ≤ 13)) →
    ∀ c ∈ fenRankAux row e, isSpaceGo c = false ∧ c ≠ '/' := by
  intro row
  induction row with
  | nil =>
    intro e _ c hc
    simp only [fenRankAux] at hc
    split at hc
    · have := natToChars_toNat e c hc
      exact digit_toNat_class c this.1 this.2
    · simp at hc
  | cons p ps ih =>
    intro e hvalid c hc
    simp only [fenRankAux] at hc
    rcases hvalid p (List.mem_cons_self p ps) with hp0 | hp2
    · rw [if_pos hp0] at hc
      exact ih (e + 1) (fun q hq => hvalid q (List.mem_cons_of_mem _ hq)) c hc
    · rw [if_neg (by omega)] at hc
      rcases List.mem_append.mp hc with h | h
      · split at h
        · have := natToChars_toNat e c h
          exact digit_toNat_class c this.1 this.2
        · simp at h
      · rcases List.mem_cons.mp h with h | h
        · subst h
          have hk := piece_char_checks p (by omega) (by omega)
          exact ⟨hk.2.2.2, hk.2.2.1⟩
        · exact ih 0 (fun q hq => hvalid q (List.mem_cons_of_mem _ hq)) c h

theorem fenRankAux_ne_nil : ∀ (row : List Nat) (e : Nat),
    (∀ p ∈ row, p = 0 ∨ (2 ≤ p ∧ p ≤ 13)) → row.length + e > 0 →
    fenRankAux row e ≠ [] := by
  intro row
  induction row with
  | nil =>
    intro e _ hpos
    simp only [fenRankAux]
    rw [if_pos (by simp at hpos; omega)]
    exact natToChars_ne_nil e
  | cons p ps ih =>
    intro e hvalid _
    simp only [fenRankAux]
    rcases hvalid p (List.mem_cons_self p ps) with hp0 | hp2
    · rw [if_pos hp0]
      exact ih (e + 1) (fun q hq => hvalid q (List.mem_cons_of_mem _ hq)) (by omega)
    · rw [if_neg (by omega)]
      intro hcon
      rcases List.append_eq_nil.mp hcon with ⟨-, h2⟩
      exact absurd h2 (by simp)

theorem mem_joinSep (sep : Char) : ∀ (pieces : List (List Char)) (c : Char),
    c ∈ joinSep [sep] pieces → c = sep ∨ ∃ p ∈ pieces, c ∈ p := by
  intro pieces
  induction pieces with
  | nil => intro c hc; simp [joinSep] at hc
  | cons x xs ih =>
    intro c hc
    cases xs with
    | nil =>
      simp only [joinSep] at hc
      exact Or.inr ⟨x, by simp, hc⟩
    | cons y ys =>
      simp only [joinSep, List.append_assoc, List.singleton_append] at hc
      rcases List.mem_append.mp hc with h | h
      · exact Or.inr ⟨x, by simp, h⟩
      · rcases List.mem_cons.mp h with h | h
        · exact Or.inl h
        · rcases ih c h with h | ⟨p, hp, hcp⟩
          · exact Or.inl h
          · exact Or.inr ⟨p, List.mem_cons_of_mem _ hp, hcp⟩

theorem goSplit_joinSep (sep : Char) : ∀ (pieces : List (List Char)),
    pieces ≠ [] → (∀ p ∈ pieces, ∀ c ∈ p, c ≠ sep) →
    goSplit sep (joinSep [sep] pieces) = pieces := by
  intro pieces
  induction pieces with
  | nil => intro h; exact absurd rfl h
  | cons x xs ih =>
    intro _ hns
    cases xs with
    | nil =>
      simp only [joinSep]
      exact goSplit_word sep x (hns x (by simp))
    | cons y ys =>
      simp only [joinSep, List.append_assoc, List.singleton_append]
      rw [goSplit_word_cons sep x _ (hns x (by simp))]
      rw [ih (by simp) (fun p hp c hc => hns p (List.mem_cons_of_mem _ hp) c hc)]

theorem parseRanks_map : ∀ rows : List (List Nat),
    (∀ row ∈ rows, (∀ p ∈ row, p = 0 ∨ (2 ≤ p ∧ p ≤ 13)) ∧ row.length = 8) →
    parseRanks (rows.map fun row => fenRankAux row 0) = .ok rows := by
  intro rows
  induction rows with
  | nil => intro _; rfl
  | cons row rest ih =>
    intro h
    have hrow := h row (List.mem_cons_self row rest)
    simp only [List.map_cons, parseRanks]
    rw [parseRank_fenRank row hrow.1 hrow.2]
    rw [ih (fun r hr => h r (List.mem_cons_of_mem _ hr))]



theorem getD_mem_valid {P : Nat → Prop} (l : List Nat) (hl : ∀ p ∈ l, P p) (h0 : P 0)
    (i : Nat) : P (l.getD i 0) := by
  by_cases h : i < l.length
  · rw [List.getD_eq_getElem l 0 h]
    exact hl _ (List.getElem_mem h)
  · rw [List.getD_eq_default l 0 (by omega)]
    exact h0

theorem boardRow_valid (b : Board) (hv : ∀ p ∈ b.Piece, p = 0 ∨ (2 ≤ p ∧ p ≤ 13)) (r : Nat) :
    ∀ p ∈ boardRow b r, p = 0 ∨ (2 ≤ p ∧ p ≤ 13) := by
  intro p hp
  unfold boardRow at hp
  rcases List.mem_map.mp hp with ⟨f, -, hf⟩
  rw [← hf]
  exact getD_mem_valid b.Piece hv (Or.inl rfl) _

theorem boardRow_length (b : Board) (r : Nat) : (boardRow b r).length = 8 := by
  unfold boardRow
  simp

theorem parsePiecePlacement_placementChars (b : Board)
    (hv : ∀ p ∈ b.Piece, p = 0 ∨ (2 ≤ p ∧ p ≤ 13)) :
    parsePiecePlacement (placementChars b) =
      .ok ((List.range 8).map (boardRow b)).join := by
  unfold placementChars parsePiecePlacement
  have hmm : (List.range 8).reverse.map (fun r => fenRankAux (boardRow b r) 0) =
      ((List.range 8).reverse.map (boardRow b)).map (fun row => fenRankAux row 0) := by
    simp [List.map_map, Function.comp]
  rw [hmm]
  rw [goSplit_joinSep '/' _ (by simp) ?hns]
  case hns =>
    intro p hp c hc
    rcases List.mem_map.mp hp with ⟨row, hrow, hrfl⟩
    rcases List.mem_map.mp hrow with ⟨r, -, hr⟩
    rw [← hrfl] at hc
    rw [← hr] at hc
    exact (fenRankAux_chars (boardRow b r) 0 (boardRow_valid b hv r) c hc).2
  rw [if_neg (by simp)]
  rw [parseRanks_map _ ?hrows]
  case hrows =>
    intro row hrow
    rcases List.mem_map.mp hrow with ⟨r, -, hr⟩
    rw [← hr]
    exact ⟨boardRow_valid b hv r, boardRow_length b r⟩
  dsimp only
  rw [List.reverse_map, List.reverse_reverse]



theorem parseActiveColor_render (side : Nat) :
    parseActiveColor (if side = 0 then ['w'] else ['b']) = .ok (if side = 0 then 0 else 1) := by
  by_cases h : side = 0 <;> simp [h, parseActiveColor]

theorem parseCastling_castleChars (b : Board) :
    parseCastling (castleChars b) =
      .ok [if b.CastleSq.getD 0 (-1) = 0 then 0 else -1,
        if b.CastleSq.getD 1 (-1) = 56 then 56 else -1,
        if b.CastleSq.getD 2 (-1) = 7 then 7 else -1,
        if b.CastleSq.getD 3 (-1) = 63 then 63 else -1] := by
  unfold castleChars
  by_cases h2 : b.CastleSq[2]?.getD (-1) = 7 <;> by_cases h0 : b.CastleSq[0]?.getD (-1) = 0 <;>
    by_cases h3 : b.CastleSq[3]?.getD (-1) = 63 <;> by_cases h1 : b.CastleSq[1]?.getD (-1) = 56 <;>
    simp [h0, h1, h2, h3, parseCastling, parseCastlingAux, List.set]

theorem castleChars_chars (b : Board) :
    castleChars b ≠ [] ∧ ∀ c ∈ castleChars b, isSpaceGo c = false := by
  unfold castleChars
  by_cases h2 : b.CastleSq[2]?.getD (-1) = 7 <;> by_cases h0 : b.CastleSq[0]?.getD (-1) = 0 <;>
    by_cases h3 : b.CastleSq[3]?.getD (-1) = 63 <;> by_cases h1 : b.CastleSq[1]?.getD (-1) = 56 <;>
    simp [h0, h1, h2, h3] <;> decide

theorem squareName_props : ∀ n : Nat, n < 64 →
    (squareFromChars ((squareNames.getD n "").data) = (n : Int) ∧
      (squareNames.getD n "").data ≠ ['-'] ∧
      (squareNames.getD n "").data ≠ [] ∧
      ∀ c ∈ (squareNames.getD n "").data, isSpaceGo c = false) := by decide

theorem parseEnPassant_sqToChars (ep : Int) (h : ep = -1 ∨ (0 ≤ ep ∧ ep < 64)) :
    parseEnPassant (sqToChars ep) = .ok ep := by
  rcases h with h | ⟨h0, h64⟩
  · subst h
    rfl
  · have hprops := squareName_props ep.toNat (by omega)
    unfold sqToChars
    rw [if_neg (by omega)]
    unfold parseEnPassant
    rw [if_neg hprops.2.1, hprops.1, Int.toNat_of_nonneg h0]
    rw [if_neg (by omega)]

theorem goItoa_chars (n : Int) :
    goItoa n ≠ [] ∧ ∀ c ∈ goItoa n, isSpaceGo c = false := by
  unfold goItoa
  split
  · refine ⟨by simp, ?_⟩
    intro c hc
    rcases List.mem_cons.mp hc with h | h
    · subst h
      decide
    · have := natToChars_toNat _ c h
      exact (digit_toNat_class c this.1 this.2).1
  · refine ⟨natToChars_ne_nil _, ?_⟩
    intro c hc
    have := natToChars_toNat _ c hc
    exact (digit_toNat_class c this.1 this.2).1

theorem placementChars_props (b : Board)
    (hv : ∀ p ∈ b.Piece, p = 0 ∨ (2 ≤ p ∧ p ≤ 13)) :
    placementChars b ≠ [] ∧ ∀ c ∈ placementChars b, isSpaceGo c = false := by
  constructor
  · unfold placementChars
    rw [show (List.range 8).reverse = [7, 6, 5, 4, 3, 2, 1, 0] from by decide]
    simp only [List.map_cons, List.map_nil, joinSep]
    intro hcon
    simp [List.append_eq_nil] at hcon
  · intro c hc
    unfold placementChars at hc
    rcases mem_joinSep '/' _ c hc with h | ⟨p, hp, hcp⟩
    · subst h
      decide
    · rcases List.mem_map.mp hp with ⟨r, -, hr⟩
      rw [← hr] at hcp
      exact (fenRankAux_chars (boardRow b r) 0 (boardRow_valid b hv r) c hcp).1



theorem sqToChars_props (ep : Int) (h : ep = -1 ∨ (0 ≤ ep ∧ ep < 64)) :
    sqToChars ep ≠ [] ∧ ∀ c ∈ sqToChars ep, isSpaceGo c = false := by
  rcases h with h | ⟨h0, h64⟩
  · subst h
    exact ⟨by decide, by decide⟩
  · unfold sqToChars
    rw [if_neg (by omega)]
    have := squareName_props ep.toNat (by omega)
    exact ⟨this.2.2.1, this.2.2.2⟩

theorem activeColorChars_props (side : Nat) :
    (if side = 0 then ['w'] else ['b']) ≠ [] ∧
      ∀ c ∈ (if side = 0 then ['w'] else ['b']), isSpaceGo c = false := by
  by_cases h : side = 0 <;> simp [h] <;> decide

theorem goFields_fenChars (b : Board)
    (hv : ∀ p ∈ b.Piece, p = 0 ∨ (2 ≤ p ∧ p ≤ 13))
    (hep : b.EpSquare = -1 ∨ (0 ≤ b.EpSquare ∧ b.EpSquare < 64)) :
    goFields (FenChars b) =
      [placementChars b, if b.SideToMove = 0 then ['w'] else ['b'], castleChars b,
        sqToChars b.EpSquare, goItoa b.Rule50, goItoa b.MoveNr] := by
  have h0 := placementChars_props b hv
  have h1 := activeColorChars_props b.SideToMove
  have h2 := castleChars_chars b
  have h3 := sqToChars_props b.EpSquare hep
  have h4 := goItoa_chars b.Rule50
  have h5 := goItoa_chars b.MoveNr
  have hassoc : FenChars b =
      placementChars b ++ ' ' :: ((if b.SideToMove = 0 then ['w'] else ['b']) ++
        ' ' :: (castleChars b ++ ' ' :: (sqToChars b.EpSquare ++
          ' ' :: (goItoa b.Rule50 ++ ' ' :: goItoa b.MoveNr)))) := by
    unfold FenChars
    simp [List.append_assoc]
  rw [hassoc, goFields_word_cons _ _ h0.1 h0.2, goFields_word_cons _ _ h1.1 h1.2,
    goFields_word_cons _ _ h2.1 h2.2, goFields_word_cons _ _ h3.1 h3.2,
    goFields_word_cons _ _ h4.1 h4.2, goFields_word _ h5.1 h5.2]

theorem ParseFen_FenChars (b : Board) (hwf : WFBoard b) :
    ParseFen (FenChars b) = .ok (normBoard b) := by
  obtain ⟨hv, hep, hr50, hmv⟩ := hwf
  unfold ParseFen
  dsimp only
  rw [goFields_fenChars b hv hep]
  rw [if_neg (by simp)]
  show (match parsePiecePlacement (placementChars b) with
    | Except.error e => Except.error e
    | Except.ok pieces => _) = _
  rw [parsePiecePlacement_placementChars b hv]
  show (match parseActiveColor (if b.SideToMove = 0 then ['w'] else ['b']) with
    | Except.error e => Except.error e
    | Except.ok side => _) = _
  rw [parseActiveColor_render b.SideToMove]
  show (match parseCastling (castleChars b) with
    | Except.error e => Except.error e
    | Except.ok castles => _) = _
  rw [parseCastling_castleChars b]
  show (match parseEnPassant (sqToChars b.EpSquare) with
    | Except.error e => Except.error e
    | Except.ok ep => _) = _
  rw [parseEnPassant_sqToChars b.EpSquare hep]
  show (match goAtoi (goItoa b.Rule50) with
    | none => _
    | some halfmove => _) = _
  rw [goAtoi_goItoa b.Rule50 hr50.1 hr50.2]
  show (match goAtoi (goItoa b.MoveNr) with
    | none => _
    | some fullmove => _) = _
  rw [goAtoi_goItoa b.MoveNr hmv.1 hmv.2]
  rfl



theorem getD_join_rows : ∀ (rows : List (List Nat)), (∀ row ∈ rows, row.length = 8) →
    ∀ r f : Nat, f < 8 → rows.join.getD (r * 8 + f) 0 = (rows.getD r []).getD f 0 := by
  intro rows
  induction rows with
  | nil => intro _ r f _; simp
  | cons row rest ih =>
    intro h r f hf
    have hlen : row.length = 8 := h row (List.mem_cons_self row rest)
    cases r with
    | zero =>
      simp only [Nat.zero_mul, Nat.zero_add, List.join_cons, List.getD_cons_zero]
      exact List.getD_append _ _ _ _ (by omega)
    | succ r2 =>
      simp only [List.join_cons, List.getD_cons_succ]
      rw [List.getD_append_right _ _ _ _ (by omega : row.length ≤ (r2 + 1) * 8 + f)]
      rw [show (r2 + 1) * 8 + f - row.length = r2 * 8 + f from by omega]
      exact ih (fun q hq => h q (List.mem_cons_of_mem _ hq)) r2 f hf

theorem rows_getD (b : Board) (r : Nat) (hr : r < 8) :
    ((List.range 8).map (boardRow b)).getD r [] = boardRow b r := by
  rw [List.getD_eq_getElem _ _ (by simpa using hr)]
  simp

theorem boardRow_normBoard (b : Board) (r : Nat) (hr : r < 8) :
    boardRow (normBoard b) r = boardRow b r := by
  unfold boardRow
  refine List.map_congr_left ?_
  intro f hf
  rw [List.mem_range] at hf
  show ((List.range 8).map (boardRow b)).join.getD (r * 8 + f) 0 = _
  rw [getD_join_rows _ ?hlens r f hf, rows_getD b r hr]
  case hlens =>
    intro row hrow
    rcases List.mem_map.mp hrow with ⟨q, -, hq⟩
    rw [← hq]
    exact boardRow_length b q
  unfold boardRow
  rw [List.getD_eq_getElem _ _ (by simpa using hf)]
  simp

theorem placementChars_normBoard (b : Board) :
    placementChars (normBoard b) = placementChars b := by
  unfold placementChars
  refine congrArg _ (List.map_congr_left ?_)
  intro r hr
  rw [List.mem_reverse, List.mem_range] at hr
  rw [boardRow_normBoard b r hr]

theorem castleChars_normBoard (b : Board) :
    castleChars (normBoard b) = castleChars b := by
  unfold castleChars normBoard
  by_cases h2 : b.CastleSq.getD 2 (-1) = 7 <;> by_cases h0 : b.CastleSq.getD 0 (-1) = 0 <;>
    by_cases h3 : b.CastleSq.getD 3 (-1) = 63 <;> by_cases h1 : b.CastleSq.getD 1 (-1) = 56 <;>
    simp [h0, h1, h2, h3]

theorem FenChars_normBoard (b : Board) : FenChars (normBoard b) = FenChars b := by
  unfold FenChars
  rw [placementChars_normBoard, castleChars_normBoard]
  have hside : (if (normBoard b).SideToMove = 0 then (['w'] : List Char) else ['b']) =
      (if b.SideToMove = 0 then ['w'] else ['b']) := by
    by_cases h : b.SideToMove = 0 <;> simp [normBoard, h]
  rw [hside]
  rfl

/-- C1 (amended): the byte-for-byte round trip holds exactly on the
serializer's own output format — every FEN `Fen` produces from a
renderable board (single spaces, castling letters in the fixed order
K,Q,k,q, maximal digit runs, canonical decimal counters) parses back and
re-serializes to the same bytes.  Inputs the parser merely normalizes
(castling letters out of order, split digit runs, extra whitespace)
re-serialize to the canonical form instead, as the counterexample
shows. -/
theorem fen_roundtrip_canonical (f : List Char)
    (hf : ∃ b : Board, WFBoard b ∧ f = FenChars b) :
    ∃ b2 : Board, ParseFen f = .ok b2 ∧ FenChars b2 = f := by
  rcases hf with ⟨b, hwf, rfl⟩
  exact ⟨normBoard b, ParseFen_FenChars b hwf, FenChars_normBoard b⟩

/-- C1 witness: the round trip through the serializer's output on the
starting position. -/
theorem fen_roundtrip_canonical_witness :
    ∃ b2 : Board, ParseFen (FenChars startBoard) = .ok b2 ∧
      FenChars b2 = FenChars startBoard :=
  fen_roundtrip_canonical (FenChars startBoard)
    ⟨startBoard, ⟨by decide, by decide, by decide, by decide⟩, rfl⟩

end GoChess
